import Mathlib

/-!
# Morse transcoder: symbol table, encode and decode

A shallow embedding of `src/src/morse_tables.c`, of `src/src/morse.c` and of
`parse_options` of `src/src/main.c`.

Conventions of the embedding:

* a C `char` is a natural number (its byte value, `0 .. 255`);
* a C string is the list of its bytes before the terminating NUL, so the
  loop condition `text[i] != '\0'` is "the remaining list is not empty" and
  `strcmp(a, b) == 0` is equality of lists;
* a `char*` that may be `NULL` is an `Option`;
* `malloc` is taken to succeed (memory is unbounded), `strcat` appends;
* `encode_loop` and `encode_to_morse` work on the bytes of the text and are the code for
  every text whose scan stays in front of the terminator; `encode_loop_mem` and
  `encode_to_morse_mem` work on the memory behind the pointer (text, terminator, and the
  bytes that follow) and also cover the texts on which the inner loop of
  `encode_to_morse` steps over the terminator.
-/

namespace Morse

/-- Bytes of a string literal. -/
def str (s : String) : List Nat := s.toList.map Char.toNat

/-- Entry of the table: `typedef struct { char character; const char* morse_code; } MorseMapping`. -/
structure MorseMapping where
  character : Nat
  morse_code : Option (List Nat)
deriving DecidableEq, Repr

/-- Table entry `{ch, "code"}`. -/
def entry (ch : Char) (code : String) : MorseMapping := ⟨ch.toNat, some (str code)⟩

/-- The array `morse_table[]`, its end marker `{'\0', NULL}` included. -/
def morse_table : List MorseMapping := [
  entry 'A' ".-", entry 'B' "-...", entry 'C' "-.-.", entry 'D' "-..", entry 'E' ".",
  entry 'F' "..-.", entry 'G' "--.", entry 'H' "....", entry 'I' "..", entry 'J' ".---",
  entry 'K' "-.-", entry 'L' ".-..", entry 'M' "--", entry 'N' "-.", entry 'O' "---",
  entry 'P' ".--.", entry 'Q' "--.-", entry 'R' ".-.", entry 'S' "...", entry 'T' "-",
  entry 'U' "..-", entry 'V' "...-", entry 'W' ".--", entry 'X' "-..-", entry 'Y' "-.--",
  entry 'Z' "--..",
  entry '0' "-----", entry '1' ".----", entry '2' "..---", entry '3' "...--", entry '4' "....-",
  entry '5' ".....", entry '6' "-....", entry '7' "--...", entry '8' "---..", entry '9' "----.",
  entry '.' ".-.-.-", entry ',' "--..--", entry ':' "---...", entry ';' "-.-.-.", entry '?' "..--..",
  entry '=' "-...-", entry '-' "-....-", entry '+' ".-.-.",
  entry '_' "..--.-", entry '(' "-.--.", entry ')' "-.--.-", entry '/' "-..-.", entry '@' ".--.-.",
  ⟨0, none⟩]

/-- C `toupper` in the "C" locale (the program never calls `setlocale`). -/
def toupper (c : Nat) : Nat := if 97 ≤ c ∧ c ≤ 122 then c - 32 else c

/-- Loop of `get_morse_for_char` over the entries from index `i` on:
`for (...; morse_table[i].morse_code != NULL; i++) if (morse_table[i].character == c) return ...`. -/
def get_morse_for_char_loop (c : Nat) : List MorseMapping → Option (List Nat)
  | [] => none
  | ⟨_, none⟩ :: _ => none
  | ⟨ch, some code⟩ :: rest => if ch = c then some code else get_morse_for_char_loop c rest

/-- Function `get_morse_for_char`: `none` is the `NULL` result. -/
def get_morse_for_char (c : Nat) : Option (List Nat) :=
  get_morse_for_char_loop (toupper c) morse_table

/-- Loop of `get_char_for_morse` over the entries from index `i` on:
`if (strcmp(morse_table[i].morse_code, morse_code) == 0) return morse_table[i].character`. -/
def get_char_for_morse_loop (morse_code : List Nat) : List MorseMapping → Nat
  | [] => 0
  | ⟨_, none⟩ :: _ => 0
  | ⟨ch, some code⟩ :: rest =>
    if code = morse_code then ch else get_char_for_morse_loop morse_code rest

/-- Function `get_char_for_morse`: the result `0` is `'\0'`, not found. -/
def get_char_for_morse (morse_code : List Nat) : Nat :=
  get_char_for_morse_loop morse_code morse_table

/-- Macro `LETTER_SEPARATOR`. -/
def LETTER_SEPARATOR : List Nat := str " "
/-- Macro `WORD_SEPARATOR`. -/
def WORD_SEPARATOR : List Nat := str "   "
/-- Macro `SLASH_WORD_SEPARATOR`. -/
def SLASH_WORD_SEPARATOR : List Nat := str " / "
/-- Macro `UNKNOWN_CHAR`. -/
def UNKNOWN_CHAR : List Nat := str "*"
/-- Macro `MAX_MORSE_CODE_LENGTH`. -/
def MAX_MORSE_CODE_LENGTH : Nat := 10

/-- Local state of the loop of `encode_to_morse`. -/
structure EncState where
  morse_code : List Nat
  first_letter : Bool
  first_word : Bool
deriving DecidableEq, Repr

/-- Number of bytes announced by a lead byte `c >= 128`:
`if ((c & 0xE0) == 0xC0) bytes = 2; else if ((c & 0xF0) == 0xE0) bytes = 3;
 else if ((c & 0xF8) == 0xF0) bytes = 4; else bytes = 1`. -/
def utf8_bytes (c : Nat) : Nat :=
  if c &&& 0xE0 = 0xC0 then 2
  else if c &&& 0xF0 = 0xE0 then 3
  else if c &&& 0xF8 = 0xF0 then 4
  else 1

/-- Inner loop `for (int j = 0; j < bytes; j++)` of `encode_to_morse`, with `n` iterations
left to run from `j`. `out` is the output so far and `rest` what lies behind position
`i`: the rest of the text in `encode_loop`, the memory behind `text + i` (terminator and
what follows it included) in `encode_loop_mem`. The statement `i++` drops one byte of
`rest`. -/
def unknown_loop (bytes : Nat) : Nat → Nat → List Nat → List Nat → List Nat × List Nat
  | 0, _, out, rest => (out, rest)
  | n + 1, j, out, rest =>
    let out1 := if j > 0 then out ++ LETTER_SEPARATOR else out
    let out2 := out1 ++ UNKNOWN_CHAR
    let rest1 := if j < bytes - 1 then rest.drop 1 else rest
    unknown_loop bytes n (j + 1) out2 rest1

/-- Main loop of `encode_to_morse` on the bytes of the text from position `i` on. The fuel
bounds the number of iterations; `encode_to_morse` supplies the length of the text.

This loop sees the bytes of the string only. It is the loop of the code as long as the
scan stays in front of the terminator (`scan_stays_inside`; `encode_loop_mem_inside`
proves the agreement with `encode_loop_mem`). When a text ends inside the bytes that a
byte outside the 7-bit range announces, the inner loop of the code steps over the
terminator and the code goes on in the memory behind the text; this loop stops there
instead, and `encode_loop_mem` is the loop to consult. -/
def encode_loop (use_slash_wordspacer : Bool) : Nat → List Nat → EncState → EncState
  | 0, _, s => s
  | _ + 1, [], s => s
  | fuel + 1, c :: rest, s =>
    if c = 10 ∨ c = 13 then
      encode_loop use_slash_wordspacer fuel rest s
    else if c = 32 then
      let out :=
        if !s.first_word then
          (if use_slash_wordspacer then s.morse_code ++ SLASH_WORD_SEPARATOR
           else s.morse_code ++ WORD_SEPARATOR)
        else s.morse_code
      encode_loop use_slash_wordspacer fuel rest ⟨out, true, false⟩
    else
      let char_morse := get_morse_for_char c
      let s1 : EncState :=
        if !s.first_letter then ⟨s.morse_code ++ LETTER_SEPARATOR, s.first_letter, s.first_word⟩
        else ⟨s.morse_code, false, false⟩
      match char_morse with
      | some code =>
        encode_loop use_slash_wordspacer fuel rest
          ⟨s1.morse_code ++ code, s1.first_letter, s1.first_word⟩
      | none =>
        if c < 128 then
          encode_loop use_slash_wordspacer fuel rest
            ⟨s1.morse_code ++ UNKNOWN_CHAR, s1.first_letter, s1.first_word⟩
        else
          let r := unknown_loop (utf8_bytes c) (utf8_bytes c) 0 s1.morse_code rest
          encode_loop use_slash_wordspacer fuel r.2 ⟨r.1, s1.first_letter, s1.first_word⟩

/-- Function `encode_to_morse`: `none` is `NULL`. The result is the one of the code for
every text whose scan stays in front of the terminator (see `encode_loop`);
`encode_to_morse_mem` covers the other texts. -/
def encode_to_morse (text : Option (List Nat)) (use_slash_wordspacer : Bool) :
    Option (List Nat) :=
  match text with
  | none => none
  | some t => some (encode_loop use_slash_wordspacer t.length t ⟨[], true, true⟩).morse_code

/-- Local state of the loop of `decode_from_morse`: `text` holds `text[0 .. text_index)`,
`morse_buffer` holds `morse_buffer[0 .. morse_index)`. -/
structure DecState where
  text : List Nat
  morse_buffer : List Nat
  space_count : Nat
  in_slash_wordspacer : Bool
deriving DecidableEq, Repr

/-- The block `if (morse_index > 0) { ... get_char_for_morse(morse_buffer) ... }` without
the reset of `morse_index`: the text after the buffered code has been resolved. -/
def flush_buffer (text morse_buffer : List Nat) : List Nat :=
  if morse_buffer.length > 0 then
    (if get_char_for_morse morse_buffer ≠ 0 then text ++ [get_char_for_morse morse_buffer]
     else text)
  else text

/-- Main loop of `decode_from_morse` on the input from position `i` on (`c` is
`morse_code[i]`, `rest` starts at `morse_code[i+1]`; reading at the end of the list gives
the terminator `0`). The fuel bounds the number of iterations; `decode_from_morse`
supplies the length of the input. -/
def decode_loop : Nat → List Nat → DecState → DecState
  | 0, _, s => s
  | _ + 1, [], s => s
  | fuel + 1, c :: rest, s =>
    if c = 32 then
      let text1 := flush_buffer s.text s.morse_buffer
      let space_count1 := s.space_count + 1
      if space_count1 = 1 ∧ rest.getD 0 0 = 47 ∧ rest.getD 1 0 = 32 then
        decode_loop fuel (rest.drop 2) ⟨text1 ++ [32], [], 0, true⟩
      else if space_count1 = 3 then
        decode_loop fuel rest ⟨text1 ++ [32], [], 0, s.in_slash_wordspacer⟩
      else
        decode_loop fuel rest ⟨text1, [], space_count1, s.in_slash_wordspacer⟩
    else
      let buf :=
        if s.morse_buffer.length < MAX_MORSE_CODE_LENGTH then s.morse_buffer ++ [c]
        else s.morse_buffer
      decode_loop fuel rest ⟨s.text, buf, 0, false⟩

/-- Function `decode_from_morse`: `none` is `NULL`. -/
def decode_from_morse (morse_code : Option (List Nat)) : Option (List Nat) :=
  match morse_code with
  | none => none
  | some m =>
    let s := decode_loop m.length m ⟨[], [], 0, false⟩
    some (flush_buffer s.text s.morse_buffer)

/-- Characters of the entries in front of the end marker. -/
def table_characters : List Nat :=
  (morse_table.filter (fun m => m.morse_code.isSome)).map (fun m => m.character)

/-- Codes of the entries in front of the end marker. -/
def stored_codes : List (List Nat) :=
  morse_table.filterMap (fun m => m.morse_code)

/-- `c` is the character of a table entry. -/
def in_table (c : Nat) : Prop := c ∈ table_characters

instance (c : Nat) : Decidable (in_table c) := by unfold in_table; infer_instance

/-- Token that one character contributes to the output of `encode_to_morse`: its table
code when its uppercase form is in the table, the mark `*` otherwise. -/
def letter_token (c : Nat) : List Nat :=
  match get_morse_for_char c with
  | some code => code
  | none => UNKNOWN_CHAR

/-- Encoding of one word: the tokens of its characters joined by single blanks. -/
def word_code (w : List Nat) : List Nat :=
  List.intercalate LETTER_SEPARATOR (w.map letter_token)

/-- Separator between words chosen by the flag `use_slash_wordspacer`. -/
def word_separator (use_slash_wordspacer : Bool) : List Nat :=
  if use_slash_wordspacer then SLASH_WORD_SEPARATOR else WORD_SEPARATOR

/-- One iteration of the loop of `encode_to_morse` on a character that does not take
the multi-byte branch (a 7-bit character or a character with a code). -/
def encode_step (use_slash_wordspacer : Bool) (s : EncState) (c : Nat) : EncState :=
  if c = 10 ∨ c = 13 then s
  else if c = 32 then
    ⟨if !s.first_word then s.morse_code ++ word_separator use_slash_wordspacer
      else s.morse_code, true, false⟩
  else if !s.first_letter then
    ⟨s.morse_code ++ LETTER_SEPARATOR ++ letter_token c, s.first_letter, s.first_word⟩
  else ⟨s.morse_code ++ letter_token c, false, false⟩

/-- Characters that a resolved letter buffer adds to the decoded text. -/
def resolve (morse_buffer : List Nat) : List Nat :=
  if get_char_for_morse morse_buffer ≠ 0 then [get_char_for_morse morse_buffer] else []

/-- One iteration of the loop of `decode_from_morse` at a position where the slash
pattern does not follow. -/
def decode_step (s : DecState) (c : Nat) : DecState :=
  if c = 32 then
    if s.space_count + 1 = 3 then
      ⟨flush_buffer s.text s.morse_buffer ++ [32], [], 0, s.in_slash_wordspacer⟩
    else
      ⟨flush_buffer s.text s.morse_buffer, [], s.space_count + 1, s.in_slash_wordspacer⟩
  else
    ⟨s.text,
     if s.morse_buffer.length < MAX_MORSE_CODE_LENGTH then s.morse_buffer ++ [c]
     else s.morse_buffer, 0, false⟩

/-- Length announced by a lead byte, by its bit pattern: 2 for `110xxxxx`, 3 for
`1110xxxx`, 4 for `11110xxx`, and 1 for a byte of none of these patterns. -/
def lead_length (b : Nat) : Nat :=
  if 0xC0 ≤ b ∧ b ≤ 0xDF then 2
  else if 0xE0 ≤ b ∧ b ≤ 0xEF then 3
  else if 0xF0 ≤ b ∧ b ≤ 0xF7 then 4
  else 1

/-- The text with every line-feed and carriage-return byte removed. -/
def strip_newlines (text : List Nat) : List Nat :=
  text.filter (fun c => decide (c ≠ 10 ∧ c ≠ 13))

/-- The scan of `encode_to_morse` over the bytes of a text, with `skip` bytes left to
step over behind the last byte outside the 7-bit range: the scan stays in front of the
terminator (every byte that is stepped over is a byte of the text), and every byte it
steps over passes the test `p`. Only the bytes that the scan reads as `text[i]` at the
head of the loop announce bytes to step over. -/
def scan_inside (p : Nat → Bool) : Nat → List Nat → Bool
  | 0, [] => true
  | _ + 1, [] => false
  | 0, b :: rest => scan_inside p (if 128 ≤ b then utf8_bytes b - 1 else 0) rest
  | skip + 1, b :: rest => p b && scan_inside p skip rest

/-- The scan of `encode_to_morse` over the text stays in front of the terminator: the
bytes announced by each byte outside the 7-bit range that the scan reads are all there. -/
def scan_stays_inside (text : List Nat) : Prop := scan_inside (fun _ => true) 0 text = true

/-- The scan of `encode_to_morse` over the text stays in front of the terminator and
steps over no line feed and no carriage return. -/
def scan_steps_over_no_newline (text : List Nat) : Prop :=
  scan_inside (fun b => decide (b ≠ 10 ∧ b ≠ 13)) 0 text = true

instance (text : List Nat) : Decidable (scan_stays_inside text) := by
  unfold scan_stays_inside; infer_instance

instance (text : List Nat) : Decidable (scan_steps_over_no_newline text) := by
  unfold scan_steps_over_no_newline; infer_instance

/-- Structure `ProgramOptions` of `main.c`; a `NULL` pointer is `none`. -/
structure ProgramOptions where
  encode : Bool
  decode : Bool
  help : Bool
  programmer_info : Bool
  slash_wordspacer : Bool
  output_file : Option (List Nat)
  input_files : Option (List (List Nat))
  input_file_count : Nat
deriving DecidableEq, Repr

/-- One result of a call of `getopt_long`: the value it returns (the short option
character, also for the long spelling of the option, or `'?'`) and `optarg`. -/
structure GetoptResult where
  c : Nat
  optarg : Option (List Nat)
deriving DecidableEq, Repr

/-- The loop `while ((c = getopt_long(...)) != -1) switch (c) ...` of `parse_options` on
the results that `getopt_long` still has to deliver. The flag of the result is `false`
when the loop has left the function with `return -1`. -/
def parse_options_loop : List GetoptResult → ProgramOptions → Bool × ProgramOptions
  | [], options => (true, options)
  | r :: rest, options =>
    if r.c = 'h'.toNat then parse_options_loop rest { options with help := true }
    else if r.c = 'e'.toNat then parse_options_loop rest { options with encode := true }
    else if r.c = 'd'.toNat then
      parse_options_loop rest { options with encode := false, decode := true }
    else if r.c = 'o'.toNat then parse_options_loop rest { options with output_file := r.optarg }
    else if r.c = 'p'.toNat then
      parse_options_loop rest { options with programmer_info := true }
    else if r.c = 's'.toNat then
      parse_options_loop rest { options with slash_wordspacer := true }
    else (false, options)

/-- Function `parse_options` on the results of `getopt_long` for the command line and
the arguments left over behind the options (`argv[optind .. argc)`): the value returned
and the options written through the pointer. -/
def parse_options (results : List GetoptResult) (remaining : List (List Nat)) :
    Int × ProgramOptions :=
  let r := parse_options_loop results
    ⟨true, false, false, false, false, none, none, 0⟩
  if !r.1 then (-1, r.2)
  else if r.2.encode && r.2.decode then (-1, r.2)
  else if r.2.slash_wordspacer && r.2.decode then (-1, r.2)
  else if 0 < remaining.length then
    (0, { r.2 with input_file_count := remaining.length, input_files := some remaining })
  else (0, r.2)

/-- The loop of `decode_from_morse` run over a whole input from a given state. -/
def decode_run (morse_code : List Nat) (s : DecState) : DecState :=
  decode_loop morse_code.length morse_code s

/-- Two Morse strings leave the decoder in the same state (same decoded text, same
letter buffer, no blank counted), and neither ends with a slash. -/
def same_decoding (a b : List Nat) : Prop :=
  ∃ text buf f1 f2,
    decode_run a ⟨[], [], 0, false⟩ = ⟨text, buf, 0, f1⟩ ∧
    decode_run b ⟨[], [], 0, false⟩ = ⟨text, buf, 0, f2⟩ ∧
    buf.length ≤ MAX_MORSE_CODE_LENGTH ∧
    a.getLast? ≠ some 47 ∧ b.getLast? ≠ some 47

/-- C `strlen` on the memory behind a pointer: the number of bytes in front of the first
`0` byte. -/
def strlen (mem : List Nat) : Nat := (mem.takeWhile (fun c => decide (c ≠ 0))).length

/-- Main loop of `encode_to_morse` on the memory behind `text + i`: the bytes of the
string from position `i` on, its terminator `0`, and the bytes that lie behind the
terminator. It is `encode_loop` with the loop test `text[i] != '\0'` written out; the
statement `i++` of the inner loop moves on one byte of memory whether or not it is the
terminator. -/
def encode_loop_mem (use_slash_wordspacer : Bool) : Nat → List Nat → EncState → EncState
  | 0, _, s => s
  | _ + 1, [], s => s
  | fuel + 1, c :: rest, s =>
    if c = 0 then s
    else if c = 10 ∨ c = 13 then
      encode_loop_mem use_slash_wordspacer fuel rest s
    else if c = 32 then
      let out :=
        if !s.first_word then
          (if use_slash_wordspacer then s.morse_code ++ SLASH_WORD_SEPARATOR
           else s.morse_code ++ WORD_SEPARATOR)
        else s.morse_code
      encode_loop_mem use_slash_wordspacer fuel rest ⟨out, true, false⟩
    else
      let char_morse := get_morse_for_char c
      let s1 : EncState :=
        if !s.first_letter then ⟨s.morse_code ++ LETTER_SEPARATOR, s.first_letter, s.first_word⟩
        else ⟨s.morse_code, false, false⟩
      match char_morse with
      | some code =>
        encode_loop_mem use_slash_wordspacer fuel rest
          ⟨s1.morse_code ++ code, s1.first_letter, s1.first_word⟩
      | none =>
        if c < 128 then
          encode_loop_mem use_slash_wordspacer fuel rest
            ⟨s1.morse_code ++ UNKNOWN_CHAR, s1.first_letter, s1.first_word⟩
        else
          let r := unknown_loop (utf8_bytes c) (utf8_bytes c) 0 s1.morse_code rest
          encode_loop_mem use_slash_wordspacer fuel r.2 ⟨r.1, s1.first_letter, s1.first_word⟩

/-- What `encode_to_morse` writes into `morse_code` when `text` points at the memory
`mem` (the buffer it allocates has `strlen mem * 10` bytes). -/
def encode_to_morse_mem (mem : List Nat) (use_slash_wordspacer : Bool) : List Nat :=
  (encode_loop_mem use_slash_wordspacer mem.length mem ⟨[], true, true⟩).morse_code

/-- Every byte outside the 7-bit range has the bytes it announces inside the text: the
scan of `encode_to_morse` never steps over the terminator. -/
def scan_in_bounds : List Nat → Prop
  | [] => True
  | b :: rest => (128 ≤ b → utf8_bytes b - 1 ≤ rest.length) ∧ scan_in_bounds rest

instance scan_in_bounds_decidable : (text : List Nat) → Decidable (scan_in_bounds text)
  | [] => isTrue trivial
  | b :: rest =>
    have := scan_in_bounds_decidable rest
    by unfold scan_in_bounds; infer_instance

/-- Loop of the reference decoder of the claim on the letter buffer: the loop of
`decode_from_morse` with the single change that every non-blank character is appended
to the letter buffer, with no cap on its length. -/
def decode_loop_uncapped : Nat → List Nat → DecState → DecState
  | 0, _, s => s
  | _ + 1, [], s => s
  | fuel + 1, c :: rest, s =>
    if c = 32 then
      let text1 := flush_buffer s.text s.morse_buffer
      let space_count1 := s.space_count + 1
      if space_count1 = 1 ∧ rest.getD 0 0 = 47 ∧ rest.getD 1 0 = 32 then
        decode_loop_uncapped fuel (rest.drop 2) ⟨text1 ++ [32], [], 0, true⟩
      else if space_count1 = 3 then
        decode_loop_uncapped fuel rest ⟨text1 ++ [32], [], 0, s.in_slash_wordspacer⟩
      else
        decode_loop_uncapped fuel rest ⟨text1, [], space_count1, s.in_slash_wordspacer⟩
    else
      decode_loop_uncapped fuel rest ⟨s.text, s.morse_buffer ++ [c], 0, false⟩

/-- Reference decoder of the claim on the letter buffer: `decode_from_morse` without the
cap of `MAX_MORSE_CODE_LENGTH` marks. -/
def decode_from_morse_uncapped (morse_code : Option (List Nat)) : Option (List Nat) :=
  match morse_code with
  | none => none
  | some m =>
    let s := decode_loop_uncapped m.length m ⟨[], [], 0, false⟩
    some (flush_buffer s.text s.morse_buffer)

/-- A state of the decoder and a state of the reference decoder that differ only in
the letter buffer, the first holding the first `MAX_MORSE_CODE_LENGTH` characters of
the second. -/
def capped_of (s u : DecState) : Prop :=
  s.text = u.text ∧ s.morse_buffer = u.morse_buffer.take MAX_MORSE_CODE_LENGTH ∧
    s.space_count = u.space_count ∧ s.in_slash_wordspacer = u.in_slash_wordspacer

/-! ## The symbol table -/

theorem get_morse_for_char_loop_none (u : Nat) (tbl : List MorseMapping)
    (h : ∀ e ∈ tbl, e.morse_code ≠ none → e.character ≠ u) :
    get_morse_for_char_loop u tbl = none := by
  induction tbl with
  | nil => rfl
  | cons e rest ih =>
    obtain ⟨ch, code⟩ := e
    cases code with
    | none => rfl
    | some code =>
      have h1 : ch ≠ u := h ⟨ch, some code⟩ (List.mem_cons_self _ _) (by simp)
      simp only [get_morse_for_char_loop, h1, if_false]
      exact ih (fun e he => h e (List.mem_cons_of_mem _ he))

theorem get_char_for_morse_loop_mem (s : List Nat) (tbl : List MorseMapping) (c : Nat)
    (h : get_char_for_morse_loop s tbl = c) (hc : c ≠ 0) : ⟨c, some s⟩ ∈ tbl := by
  induction tbl with
  | nil => exact absurd h.symm hc
  | cons e rest ih =>
    obtain ⟨ch, code⟩ := e
    cases code with
    | none => exact absurd h.symm hc
    | some code =>
      simp only [get_char_for_morse_loop] at h
      by_cases hs : code = s
      · simp only [hs, if_true] at h
        subst hs; subst h
        exact List.mem_cons_self _ _
      · simp only [hs, if_false] at h
        exact List.mem_cons_of_mem _ (ih h)

theorem get_char_for_morse_loop_zero (s : List Nat) (tbl : List MorseMapping)
    (h : some s ∉ tbl.map (fun m => m.morse_code)) : get_char_for_morse_loop s tbl = 0 := by
  induction tbl with
  | nil => rfl
  | cons e rest ih =>
    obtain ⟨ch, code⟩ := e
    cases code with
    | none => rfl
    | some code =>
      simp only [List.map_cons, List.mem_cons, not_or] at h
      have hs : code ≠ s := fun hcs => h.1 (by rw [hcs])
      simp only [get_char_for_morse_loop, hs, if_false]
      exact ih h.2

/-- Every entry with a code is found again by the reverse lookup, under a character
that is not the NUL character. -/
theorem table_reverse_lookup :
    ∀ e ∈ morse_table,
      e.morse_code.all (fun code => get_char_for_morse code == e.character && e.character != 0)
        = true := by
  decide

theorem table_forward_lookup :
    ∀ u ∈ table_characters,
      (get_morse_for_char_loop u morse_table).map get_char_for_morse = some u := by
  decide

theorem toupper_idem (c : Nat) : toupper (toupper c) = toupper c := by
  unfold toupper
  split_ifs <;> omega

theorem mem_table_characters (e : MorseMapping) (he : e ∈ morse_table)
    (hc : e.morse_code ≠ none) : e.character ∈ table_characters := by
  unfold table_characters
  refine List.mem_map.mpr ⟨e, List.mem_filter.mpr ⟨he, ?_⟩, rfl⟩
  cases hm : e.morse_code with
  | none => exact absurd hm hc
  | some code => rfl

theorem get_morse_for_char_isSome (c : Nat) :
    (get_morse_for_char c).isSome = true ↔ in_table (toupper c) := by
  constructor
  · intro h
    by_contra hn
    have h0 : get_morse_for_char c = none :=
      get_morse_for_char_loop_none (toupper c) morse_table
        (fun e he hc heq => hn (heq ▸ mem_table_characters e he hc))
    rw [h0] at h
    exact absurd h (by simp)
  · intro h
    have h1 := table_forward_lookup (toupper c) h
    unfold get_morse_for_char
    cases hl : get_morse_for_char_loop (toupper c) morse_table with
    | none => rw [hl] at h1; exact absurd h1 (by simp)
    | some code => rfl

/-- C7. Table lookup round trip: for every character `c` whose uppercase form is in the
symbol table, `get_morse_for_char c` finds a code and `get_char_for_morse` of that code
returns the uppercase form of `c`. -/
theorem C7_table_lookup_round_trip (c : Nat) (h : in_table (toupper c)) :
    ∃ code, get_morse_for_char c = some code ∧ get_char_for_morse code = toupper c := by
  have h1 := table_forward_lookup (toupper c) h
  unfold get_morse_for_char
  cases hl : get_morse_for_char_loop (toupper c) morse_table with
  | none => rw [hl] at h1; exact absurd h1 (by simp)
  | some code =>
    rw [hl] at h1
    exact ⟨code, rfl, by simpa using h1⟩

theorem C7_table_lookup_round_trip_witness :
    in_table (toupper 97) ∧
      ∃ code, get_morse_for_char 97 = some code ∧ get_char_for_morse code = toupper 97 :=
  ⟨by decide, C7_table_lookup_round_trip 97 (by decide)⟩

/-- C8. Exact table contents: `get_morse_for_char c` finds a code if and only if the
uppercase form of `c` is one of the 49 characters A-Z, 0-9 and `.,:;?=-+_()/@`; every
stored code is a non-empty sequence of dots and dashes only; and the reference values
`A = .-`, `0 = -----`, `? = ..--..` hold. -/
theorem C8_exact_table_contents :
    (∀ c : Nat, (get_morse_for_char c).isSome = true ↔
        toupper c ∈ str "ABCDEFGHIJKLMNOPQRSTUVWXYZ0123456789.,:;?=-+_()/@") ∧
    (str "ABCDEFGHIJKLMNOPQRSTUVWXYZ0123456789.,:;?=-+_()/@").length = 49 ∧
    (str "ABCDEFGHIJKLMNOPQRSTUVWXYZ0123456789.,:;?=-+_()/@").Nodup ∧
    (∀ code ∈ stored_codes, code ≠ [] ∧ ∀ m ∈ code, m = 46 ∨ m = 45) ∧
    get_morse_for_char 65 = some (str ".-") ∧
    get_morse_for_char 48 = some (str "-----") ∧
    get_morse_for_char 63 = some (str "..--..") := by
  refine ⟨fun c => ?_, by decide, by decide, by decide, by decide, by decide, by decide⟩
  rw [get_morse_for_char_isSome]
  have h : table_characters = str "ABCDEFGHIJKLMNOPQRSTUVWXYZ0123456789.,:;?=-+_()/@" := by
    decide
  unfold in_table
  rw [h]

/-- C9. Code uniqueness invariant of the symbol table: no two distinct entries of
`morse_table` have the same code string, and no two entries have the same character. -/
theorem C9_code_uniqueness :
    (morse_table.map (fun m => m.morse_code)).Nodup ∧
    (morse_table.map (fun m => m.character)).Nodup := by
  constructor <;> decide

/-- C10. Reverse lookup is a strict exact match: `get_char_for_morse s` returns `c` as
found (a character other than NUL) if and only if the table has the entry of character
`c` whose stored code is exactly `s`; and it returns not-found (NUL) if and only if `s`
is not one of the stored codes. -/
theorem C10_reverse_lookup_exact (s : List Nat) (c : Nat) :
    ((get_char_for_morse s = c ∧ c ≠ 0) ↔ (⟨c, some s⟩ : MorseMapping) ∈ morse_table) ∧
    (get_char_for_morse s = 0 ↔ s ∉ stored_codes) := by
  constructor
  · constructor
    · rintro ⟨h, hc⟩
      exact get_char_for_morse_loop_mem s morse_table c h hc
    · intro h
      have := table_reverse_lookup _ h
      simpa using this
  · constructor
    · intro h hs
      obtain ⟨e, he, hes⟩ := List.mem_filterMap.mp hs
      have := table_reverse_lookup e he
      rw [hes] at this
      simp at this
      exact this.2 (this.1 ▸ h)
    · intro h
      apply get_char_for_morse_loop_zero
      intro hs
      obtain ⟨e, he, hes⟩ := List.mem_map.mp hs
      exact h (List.mem_filterMap.mpr ⟨e, he, hes⟩)

/-! ## Encoding -/

theorem encode_loop_cons (m : Bool) (fuel c : Nat) (rest : List Nat) (s : EncState)
    (hc : c < 128 ∨ (get_morse_for_char c).isSome = true) :
    encode_loop m (fuel + 1) (c :: rest) s = encode_loop m fuel rest (encode_step m s c) := by
  unfold encode_step letter_token word_separator
  rw [encode_loop]
  by_cases h1 : c = 10 ∨ c = 13
  · simp only [h1, if_true]
  · simp only [h1, if_false]
    by_cases h2 : c = 32
    · simp only [h2, if_true]
      cases s.first_word <;> cases m <;> rfl
    · simp only [h2, if_false]
      cases hm : get_morse_for_char c with
      | some code => cases s.first_letter <;> rfl
      | none =>
        rw [hm] at hc
        have h3 : c < 128 := by
          rcases hc with h | h
          · exact h
          · exact absurd h (by simp)
        simp only [h3, if_true]
        cases s.first_letter <;> rfl

theorem encode_loop_foldl (m : Bool) (l : List Nat)
    (hl : ∀ c ∈ l, c < 128 ∨ (get_morse_for_char c).isSome = true) (s : EncState) :
    encode_loop m l.length l s = l.foldl (encode_step m) s := by
  induction l generalizing s with
  | nil => rfl
  | cons c rest ih =>
    rw [List.length_cons, encode_loop_cons m _ c rest s (hl c (List.mem_cons_self _ _))]
    rw [ih (fun x hx => hl x (List.mem_cons_of_mem _ hx))]
    rfl

theorem intercalate_cons_eq (sep x : List Nat) (xs : List (List Nat)) :
    List.intercalate sep (x :: xs) = x ++ (xs.map (fun y => sep ++ y)).flatten := by
  induction xs generalizing x with
  | nil => simp [List.intercalate]
  | cons y ys ih =>
    have h := ih y
    simp only [List.intercalate] at h ⊢
    simp only [List.intersperse, List.flatten_cons, List.map_cons, h, List.append_assoc]

theorem encode_word_tail (m : Bool) (w : List Nat) (out : List Nat) (fw : Bool)
    (hw : ∀ c ∈ w, c ≠ 10 ∧ c ≠ 13 ∧ c ≠ 32) :
    w.foldl (encode_step m) ⟨out, false, fw⟩ =
      ⟨out ++ (w.map (fun c => LETTER_SEPARATOR ++ letter_token c)).flatten, false, fw⟩ := by
  induction w generalizing out with
  | nil => simp
  | cons c rest ih =>
    obtain ⟨h1, h2, h3⟩ := hw c (List.mem_cons_self _ _)
    have hstep : encode_step m ⟨out, false, fw⟩ c =
        ⟨out ++ LETTER_SEPARATOR ++ letter_token c, false, fw⟩ := by
      simp [encode_step, h1, h2, h3]
    rw [List.foldl_cons, hstep, ih _ (fun x hx => hw x (List.mem_cons_of_mem _ hx))]
    simp [List.append_assoc]

theorem encode_word (m : Bool) (c : Nat) (w : List Nat) (out : List Nat) (fw : Bool)
    (hw : ∀ x ∈ c :: w, x ≠ 10 ∧ x ≠ 13 ∧ x ≠ 32) :
    (c :: w).foldl (encode_step m) ⟨out, true, fw⟩ = ⟨out ++ word_code (c :: w), false, false⟩ := by
  obtain ⟨h1, h2, h3⟩ := hw c (List.mem_cons_self _ _)
  have hstep : encode_step m ⟨out, true, fw⟩ c = ⟨out ++ letter_token c, false, false⟩ := by
    simp [encode_step, h1, h2, h3]
  rw [List.foldl_cons, hstep, encode_word_tail m w _ _ (fun x hx => hw x (List.mem_cons_of_mem _ hx))]
  unfold word_code
  rw [List.map_cons, intercalate_cons_eq]
  simp [List.append_assoc, List.map_map, Function.comp_def]

theorem encode_words_tail (m : Bool) (ws : List (List Nat)) (out : List Nat)
    (hw : ∀ w ∈ ws, w ≠ [] ∧ ∀ c ∈ w, c ≠ 10 ∧ c ≠ 13 ∧ c ≠ 32) :
    ((ws.map (fun w => [32] ++ w)).flatten).foldl (encode_step m) ⟨out, false, false⟩ =
      ⟨out ++ (ws.map (fun w => word_separator m ++ word_code w)).flatten, false, false⟩ := by
  induction ws generalizing out with
  | nil => simp
  | cons w rest ih =>
    obtain ⟨hne, hcs⟩ := hw w (List.mem_cons_self _ _)
    obtain ⟨c, w1, rfl⟩ := List.exists_cons_of_ne_nil hne
    have hstep : encode_step m ⟨out, false, false⟩ 32 = ⟨out ++ word_separator m, true, false⟩ := by
      simp [encode_step]
    rw [List.map_cons, List.flatten_cons, List.foldl_append, List.singleton_append,
      List.foldl_cons, hstep, encode_word m c w1 _ _ hcs,
      ih _ (fun x hx => hw x (List.mem_cons_of_mem _ hx))]
    simp [List.append_assoc]

theorem in_table_letter (c : Nat) (h : in_table (toupper c)) :
    c ≠ 10 ∧ c ≠ 13 ∧ c ≠ 32 := by
  refine ⟨?_, ?_, ?_⟩ <;> rintro rfl <;> revert h <;> decide

/-- Encoding of a non-empty list of non-empty words of letters. -/
theorem encode_words (m : Bool) (w : List Nat) (ws : List (List Nat))
    (hw : ∀ w1 ∈ w :: ws, w1 ≠ [] ∧ ∀ c ∈ w1, c ≠ 10 ∧ c ≠ 13 ∧ c ≠ 32) :
    (List.intercalate [32] (w :: ws)).foldl (encode_step m) ⟨[], true, true⟩ =
      ⟨List.intercalate (word_separator m) ((w :: ws).map word_code), false, false⟩ := by
  obtain ⟨hne, hcs⟩ := hw w (List.mem_cons_self _ _)
  obtain ⟨c, w1, rfl⟩ := List.exists_cons_of_ne_nil hne
  rw [intercalate_cons_eq, List.foldl_append, encode_word m c w1 _ _ hcs,
    encode_words_tail m ws _ (fun x hx => hw x (List.mem_cons_of_mem _ hx)),
    List.map_cons, intercalate_cons_eq]
  simp [List.map_map, Function.comp_def]

theorem mem_intercalate (sep : List Nat) (xs : List (List Nat)) (c : Nat)
    (h : c ∈ List.intercalate sep xs) : c ∈ sep ∨ ∃ x ∈ xs, c ∈ x := by
  cases xs with
  | nil => simp [List.intercalate] at h
  | cons x rest =>
    rw [intercalate_cons_eq] at h
    simp only [List.mem_append, List.mem_flatten, List.mem_map] at h
    rcases h with h | ⟨l, ⟨y, hy, rfl⟩, hc⟩
    · exact Or.inr ⟨x, List.mem_cons_self _ _, h⟩
    · rcases List.mem_append.mp hc with h | h
      · exact Or.inl h
      · exact Or.inr ⟨y, List.mem_cons_of_mem _ hy, h⟩

theorem encode_to_morse_words (m : Bool) (w : List Nat) (ws : List (List Nat))
    (hw : ∀ w1 ∈ w :: ws, w1 ≠ [] ∧ ∀ c ∈ w1, in_table (toupper c)) :
    encode_to_morse (some (List.intercalate [32] (w :: ws))) m =
      some (List.intercalate (word_separator m) ((w :: ws).map word_code)) := by
  have hsimple : ∀ c ∈ List.intercalate [32] (w :: ws),
      c < 128 ∨ (get_morse_for_char c).isSome = true := by
    intro c hc
    rcases mem_intercalate _ _ _ hc with h | ⟨x, hx, hcx⟩
    · left
      have : c = 32 := by simpa using h
      omega
    · exact Or.inr ((get_morse_for_char_isSome c).mpr ((hw x hx).2 c hcx))
  unfold encode_to_morse
  simp only
  rw [encode_loop_foldl _ _ hsimple, encode_words m w ws
    (fun w1 hw1 => ⟨(hw w1 hw1).1, fun c hc => in_table_letter c ((hw w1 hw1).2 c hc)⟩)]

/-- The claim C2 as written fails at its own example: the code of `B` is `-...`, and
`-.` is the code of `N`. -/
theorem C2_example_fails :
    encode_to_morse (some (str "AB CD")) false ≠ some (str ".- -.   -.-. -..") ∧
    encode_to_morse (some (str "AB CD")) true ≠ some (str ".- -. / -.-. -..") := by
  constructor <;> decide

/-- C2 (amended). Separator correctness of encode: for every non-empty list of non-empty
words, each made only of characters whose uppercase form is in the symbol table,
`encode_to_morse` of the words joined by single spaces equals the encodings of the words
joined by the word separator (three blanks when `use_slash_wordspacer` is false,
blank-slash-blank when it is true), where the encoding of a word is the codes of its
characters joined by single blanks. The text `AB CD` gives `.- -...   -.-. -..` with
slash mode off and `.- -... / -.-. -..` with slash mode on. -/
theorem C2_separator_correctness (words : List (List Nat)) (use_slash_wordspacer : Bool)
    (hne : words ≠ [])
    (hw : ∀ w ∈ words, w ≠ [] ∧ ∀ c ∈ w, in_table (toupper c)) :
    encode_to_morse (some (List.intercalate (str " ") words)) use_slash_wordspacer =
      some (List.intercalate (if use_slash_wordspacer then str " / " else str "   ")
        (words.map (fun w => List.intercalate (str " ") (w.map letter_token)))) ∧
    (∀ w ∈ words, ∀ c ∈ w, get_morse_for_char c = some (letter_token c)) ∧
    encode_to_morse (some (str "AB CD")) false = some (str ".- -...   -.-. -..") ∧
    encode_to_morse (some (str "AB CD")) true = some (str ".- -... / -.-. -..") := by
  refine ⟨?_, ?_, by decide, by decide⟩
  · obtain ⟨w, ws, rfl⟩ := List.exists_cons_of_ne_nil hne
    have h32 : str " " = [32] := by decide
    rw [h32, encode_to_morse_words use_slash_wordspacer w ws hw]
    rfl
  · intro w hw1 c hc
    have h := (get_morse_for_char_isSome c).mpr ((hw w hw1).2 c hc)
    unfold letter_token
    cases hm : get_morse_for_char c with
    | none => rw [hm] at h; exact absurd h (by simp)
    | some code => rfl

theorem C2_separator_correctness_witness :
    [str "ab", str "c"] ≠ [] ∧
    (∀ w ∈ [str "ab", str "c"], w ≠ [] ∧ ∀ c ∈ w, in_table (toupper c)) ∧
    encode_to_morse (some (List.intercalate (str " ") [str "ab", str "c"])) true =
      some (str ".- -... / -.-.") :=
  ⟨by decide, by decide,
    (C2_separator_correctness [str "ab", str "c"] true (by decide) (by decide)).1.trans
      (by decide)⟩

theorem encode_single_word (m : Bool) (w : List Nat)
    (h1 : ∀ c ∈ w, c < 128 ∨ (get_morse_for_char c).isSome = true)
    (h2 : ∀ c ∈ w, c ≠ 10 ∧ c ≠ 13 ∧ c ≠ 32) :
    encode_to_morse (some w) m = some (word_code w) := by
  unfold encode_to_morse
  simp only
  rw [encode_loop_foldl _ _ h1]
  cases w with
  | nil => rfl
  | cons c rest => rw [encode_word m c rest _ _ h2]; rfl

/-- C4. Unknown 7-bit characters become one placeholder letter: for every text of 7-bit
characters without space, line feed or carriage return, and for either mode,
`encode_to_morse` gives the tokens of the characters joined by single blanks, where the
token of a character is its table code when its uppercase form is in the table and the
single mark `*` otherwise. The text `A!B` gives `.- * -...`. -/
theorem C4_unknown_ascii_placeholder (text : List Nat) (use_slash_wordspacer : Bool)
    (h7 : ∀ c ∈ text, c < 128)
    (hs : ∀ c ∈ text, c ≠ 32 ∧ c ≠ 10 ∧ c ≠ 13) :
    encode_to_morse (some text) use_slash_wordspacer =
      some (List.intercalate (str " ") (text.map letter_token)) ∧
    (∀ c, in_table (toupper c) → get_morse_for_char c = some (letter_token c)) ∧
    (∀ c, ¬ in_table (toupper c) → letter_token c = str "*") ∧
    encode_to_morse (some (str "A!B")) use_slash_wordspacer = some (str ".- * -...") := by
  refine ⟨?_, ?_, ?_, ?_⟩
  · exact encode_single_word _ text (fun c hc => Or.inl (h7 c hc))
      (fun c hc => ⟨(hs c hc).2.1, (hs c hc).2.2, (hs c hc).1⟩)
  · intro c hc
    have h := (get_morse_for_char_isSome c).mpr hc
    unfold letter_token
    cases hm : get_morse_for_char c with
    | none => rw [hm] at h; exact absurd h (by simp)
    | some code => rfl
  · intro c hc
    have h := mt (get_morse_for_char_isSome c).mp hc
    unfold letter_token
    cases hm : get_morse_for_char c with
    | none => rfl
    | some code => rw [hm] at h; exact absurd rfl h
  · cases use_slash_wordspacer <;> decide

theorem C4_unknown_ascii_placeholder_witness :
    (∀ c ∈ str "a!b#", c < 128) ∧ (∀ c ∈ str "a!b#", c ≠ 32 ∧ c ≠ 10 ∧ c ≠ 13) ∧
    encode_to_morse (some (str "a!b#")) true = some (str ".- * -... *") :=
  ⟨by decide, by decide,
    (C4_unknown_ascii_placeholder (str "a!b#") true (by decide) (by decide)).1.trans
      (by decide)⟩

/-- C6. Absent-input signalling: `encode_to_morse` and `decode_from_morse` return the
absent result exactly when the input is absent (allocation succeeding), and the empty
string encodes to the empty string and decodes to the empty string. -/
theorem C6_absent_input (input : Option (List Nat)) (use_slash_wordspacer : Bool) :
    encode_to_morse none use_slash_wordspacer = none ∧
    decode_from_morse none = none ∧
    (encode_to_morse input use_slash_wordspacer = none ↔ input = none) ∧
    (decode_from_morse input = none ↔ input = none) ∧
    encode_to_morse (some []) use_slash_wordspacer = some [] ∧
    decode_from_morse (some []) = some [] := by
  refine ⟨rfl, rfl, ?_, ?_, rfl, rfl⟩
  · cases input <;> simp [encode_to_morse]
  · cases input <;> simp [decode_from_morse]

/-! ## Bytes outside the 7-bit range -/

set_option maxRecDepth 100000 in
theorem utf8_bytes_eq_lead_length : ∀ b < 256, utf8_bytes b = lead_length b := by
  decide

theorem unknown_loop_tail (bytes n j : Nat) (out rest : List Nat) (hj : 0 < j)
    (hn : j + n = bytes) :
    unknown_loop bytes n j out rest =
      (out ++ (List.replicate n (LETTER_SEPARATOR ++ UNKNOWN_CHAR)).flatten,
        rest.drop (n - 1)) := by
  induction n generalizing j out rest with
  | zero => simp [unknown_loop]
  | succ n ih =>
    rw [unknown_loop]
    simp only [gt_iff_lt, hj, if_true]
    rw [ih (j + 1) _ _ (Nat.succ_pos j) (by omega)]
    by_cases h0 : n = 0
    · subst h0
      have : ¬ j < bytes - 1 := by omega
      simp [this]
    · have : j < bytes - 1 := by omega
      simp only [this, if_true, List.drop_drop, List.replicate_succ, List.flatten_cons,
        List.append_assoc, Nat.add_sub_cancel]
      congr 2
      omega

theorem unknown_loop_marks (n : Nat) (out rest : List Nat) :
    unknown_loop (n + 1) (n + 1) 0 out rest =
      (out ++ List.intercalate LETTER_SEPARATOR (List.replicate (n + 1) UNKNOWN_CHAR),
        rest.drop n) := by
  rw [unknown_loop]
  simp only [gt_iff_lt, Nat.lt_irrefl, if_false, Nat.add_sub_cancel, Nat.zero_add]
  rw [unknown_loop_tail (n + 1) n 1 _ _ Nat.one_pos (by omega), List.replicate_succ,
    intercalate_cons_eq, List.map_replicate]
  by_cases h0 : n = 0
  · subst h0; simp
  · have : 0 < n := Nat.pos_of_ne_zero h0
    simp only [this, if_true, List.drop_drop, List.append_assoc]
    congr 2
    omega

theorem utf8_bytes_pos (b : Nat) : ∃ n, utf8_bytes b = n + 1 := by
  unfold utf8_bytes
  split_ifs
  · exact ⟨1, rfl⟩
  · exact ⟨2, rfl⟩
  · exact ⟨3, rfl⟩
  · exact ⟨0, rfl⟩

theorem get_morse_for_char_high (b : Nat) (hb : 128 ≤ b) : get_morse_for_char b = none := by
  have h : ∀ u ∈ table_characters, u < 128 := by decide
  have hu : toupper b = b := by unfold toupper; split_ifs <;> omega
  cases hm : get_morse_for_char b with
  | none => rfl
  | some code =>
    have h1 := (get_morse_for_char_isSome b).mp (by rw [hm]; rfl)
    rw [hu] at h1
    have := h b h1
    omega

/-- One iteration of the loop of `encode_to_morse` on a byte outside the 7-bit range: one
mark per announced byte, and the scan moves past the announced bytes. -/
theorem encode_loop_cons_high (m : Bool) (fuel b : Nat) (rest : List Nat) (s : EncState)
    (hb : 128 ≤ b) :
    encode_loop m (fuel + 1) (b :: rest) s =
      encode_loop m fuel (rest.drop (utf8_bytes b - 1))
        ⟨s.morse_code ++ (if s.first_letter then [] else LETTER_SEPARATOR) ++
            List.intercalate LETTER_SEPARATOR (List.replicate (utf8_bytes b) UNKNOWN_CHAR),
          false, if s.first_letter then false else s.first_word⟩ := by
  rw [encode_loop]
  have h1 : ¬ (b = 10 ∨ b = 13) := by omega
  have h2 : ¬ b = 32 := by omega
  have h3 : ¬ b < 128 := by omega
  simp only [h1, h2, h3, if_false, get_morse_for_char_high b hb]
  obtain ⟨n, hn⟩ := utf8_bytes_pos b
  rw [hn, unknown_loop_marks]
  cases hf : s.first_letter <;> simp [hf]

theorem encode_loop_nil (m : Bool) (fuel : Nat) (s : EncState) :
    encode_loop m fuel [] s = s := by
  cases fuel <;> rfl

/-- C5. Multi-byte placeholder expansion: for every byte `b >= 128`, with `n` the length
announced by its bit pattern (2, 3 or 4 for the lead patterns, 1 otherwise), a text made
of `b`, then `n - 1` further bytes (continuation bytes or any others), then one table
character `c` encodes to `n` marks `*` joined by single blanks, one blank, and the code of
`c`; and the text made of `b` and the `n - 1` further bytes alone encodes to the `n`
marks, so a single 2-byte character gives `* *`. -/
theorem C5_multibyte_placeholder (b : Nat) (conts : List Nat) (c : Nat)
    (use_slash_wordspacer : Bool)
    (hb : 128 ≤ b) (hb2 : b < 256) (hn : conts.length + 1 = lead_length b)
    (hc : in_table (toupper c)) :
    encode_to_morse (some (b :: conts ++ [c])) use_slash_wordspacer =
      some (List.intercalate (str " ") (List.replicate (lead_length b) (str "*")) ++
        str " " ++ letter_token c) ∧
    get_morse_for_char c = some (letter_token c) ∧
    encode_to_morse (some (b :: conts)) use_slash_wordspacer =
      some (List.intercalate (str " ") (List.replicate (lead_length b) (str "*"))) := by
  have hu : utf8_bytes b = conts.length + 1 := by
    rw [utf8_bytes_eq_lead_length b hb2, hn]
  have hsome := (get_morse_for_char_isSome c).mpr hc
  obtain ⟨h1, h2, h3⟩ := in_table_letter c hc
  refine ⟨?_, ?_, ?_⟩
  · unfold encode_to_morse
    simp only [List.cons_append, List.length_cons, List.length_append, List.length_nil,
      Nat.zero_add]
    rw [encode_loop_cons_high _ _ _ _ _ hb, hu, Nat.add_sub_cancel, List.drop_left,
      encode_loop_cons _ _ _ _ _ (Or.inr hsome), encode_loop_nil, ← hn]
    simp [encode_step, h1, h2, h3, LETTER_SEPARATOR, UNKNOWN_CHAR]
  · unfold letter_token
    cases hm : get_morse_for_char c with
    | none => rw [hm] at hsome; exact absurd hsome (by simp)
    | some code => rfl
  · unfold encode_to_morse
    simp only [List.length_cons]
    rw [encode_loop_cons_high _ _ _ _ _ hb, hu, Nat.add_sub_cancel, List.drop_length,
      encode_loop_nil, ← hn]
    simp [LETTER_SEPARATOR, UNKNOWN_CHAR]

theorem C5_multibyte_placeholder_witness :
    128 ≤ 0xC3 ∧ 0xC3 < 256 ∧ [0xA4].length + 1 = lead_length 0xC3 ∧ in_table (toupper 98) ∧
    encode_to_morse (some (0xC3 :: [0xA4] ++ [98])) false = some (str "* * -...") ∧
    encode_to_morse (some (0xC3 :: [0xA4])) false = some (str "* *") :=
  have h := C5_multibyte_placeholder 0xC3 [0xA4] 98 false (by decide) (by decide) (by decide)
    (by decide)
  ⟨by decide, by decide, by decide, by decide, h.1.trans (by decide), h.2.2.trans (by decide)⟩

/-! ## Decoding -/

theorem get_char_for_morse_not_stored (s : List Nat) (h : s ∉ stored_codes) :
    get_char_for_morse s = 0 := by
  apply get_char_for_morse_loop_zero
  intro hs
  obtain ⟨e, he, hes⟩ := List.mem_map.mp hs
  exact h (List.mem_filterMap.mpr ⟨e, he, hes⟩)

theorem get_char_for_morse_stored (s : List Nat) (h : s ∈ stored_codes) :
    get_char_for_morse s ≠ 0 ∧ (⟨get_char_for_morse s, some s⟩ : MorseMapping) ∈ morse_table := by
  obtain ⟨e, he, hes⟩ := List.mem_filterMap.mp h
  have h1 := table_reverse_lookup e he
  rw [hes] at h1
  simp at h1
  obtain ⟨ch, code⟩ := e
  simp only at hes h1
  rw [h1.1, ← hes]
  exact ⟨h1.2, he⟩

theorem flush_buffer_eq (text buf : List Nat) :
    flush_buffer text buf = text ++ resolve buf := by
  unfold flush_buffer resolve
  cases buf with
  | nil =>
    have : get_char_for_morse [] = 0 := by decide
    simp [this]
  | cons c rest =>
    by_cases h : get_char_for_morse (c :: rest) = 0 <;> simp [h]

theorem resolve_take (t : List Nat) : resolve (t.take MAX_MORSE_CODE_LENGTH) = resolve t := by
  by_cases h : t.length ≤ MAX_MORSE_CODE_LENGTH
  · rw [List.take_of_length_le h]
  · have hlen : ∀ code ∈ stored_codes, code.length ≤ 6 := by decide
    have h1 : t ∉ stored_codes := by
      intro hm
      have := hlen t hm
      unfold MAX_MORSE_CODE_LENGTH at h
      omega
    have h2 : t.take MAX_MORSE_CODE_LENGTH ∉ stored_codes := by
      intro hm
      have := hlen _ hm
      rw [List.length_take] at this
      unfold MAX_MORSE_CODE_LENGTH at h this
      omega
    unfold resolve
    rw [get_char_for_morse_not_stored _ h1, get_char_for_morse_not_stored _ h2]

theorem decode_loop_foldl (l : List Nat) (h47 : 47 ∉ l) (s : DecState) :
    decode_loop l.length l s = l.foldl decode_step s := by
  induction l generalizing s with
  | nil => rfl
  | cons c rest ih =>
    have hrest : 47 ∉ rest := fun h => h47 (List.mem_cons_of_mem _ h)
    have hla : rest.getD 0 0 ≠ 47 := by
      cases rest with
      | nil => simp
      | cons d r =>
        intro h
        apply hrest
        simp only [List.getD_cons_zero] at h
        rw [h]
        exact List.mem_cons_self _ _
    rw [List.length_cons, decode_loop, List.foldl_cons, ← ih hrest]
    unfold decode_step
    by_cases h32 : c = 32
    · simp only [h32, if_true, hla, false_and, and_false, if_false]
      split_ifs <;> rfl
    · simp only [h32, if_false]

theorem decode_step_blank (text buf : List Nat) (sc : Nat) (sl : Bool) :
    decode_step ⟨text, buf, sc, sl⟩ 32 =
      if sc + 1 = 3 then ⟨text ++ resolve buf ++ [32], [], 0, sl⟩
      else ⟨text ++ resolve buf, [], sc + 1, sl⟩ := by
  simp [decode_step, flush_buffer_eq]

theorem decode_token (t : List Nat) (h32 : 32 ∉ t) (hne : t ≠ []) (text buf : List Nat)
    (sc : Nat) (sl : Bool) (hbuf : buf.length ≤ MAX_MORSE_CODE_LENGTH) :
    t.foldl decode_step ⟨text, buf, sc, sl⟩ =
      ⟨text, (buf ++ t).take MAX_MORSE_CODE_LENGTH, 0, false⟩ := by
  induction t generalizing buf sc sl with
  | nil => exact absurd rfl hne
  | cons c rest ih =>
    have hc : c ≠ 32 := fun h => h32 (h ▸ List.mem_cons_self _ _)
    have hstep : decode_step ⟨text, buf, sc, sl⟩ c =
        ⟨text, (buf ++ [c]).take MAX_MORSE_CODE_LENGTH, 0, false⟩ := by
      unfold decode_step
      simp only [hc, if_false]
      by_cases hl : buf.length < MAX_MORSE_CODE_LENGTH
      · simp only [hl, if_true]
        rw [List.take_of_length_le (by simp; omega)]
      · simp only [hl, if_false]
        have : buf.length = MAX_MORSE_CODE_LENGTH := by omega
        rw [← this, List.take_left]
    rw [List.foldl_cons, hstep]
    by_cases hr : rest = []
    · subst hr; rfl
    · rw [ih (fun h => h32 (List.mem_cons_of_mem _ h)) hr _ _ _
        (by rw [List.length_take]; exact Nat.min_le_left _ _)]
      congr 1
      by_cases hl : buf.length < MAX_MORSE_CODE_LENGTH
      · rw [List.take_of_length_le (l := buf ++ [c]) (by simp; omega)]
        simp
      · have : buf.length = MAX_MORSE_CODE_LENGTH := by omega
        rw [← this, List.take_left, List.take_left, List.take_left]

theorem intercalate_cons_cons (sep x y : List Nat) (zs : List (List Nat)) :
    List.intercalate sep (x :: y :: zs) = x ++ sep ++ List.intercalate sep (y :: zs) := by
  rw [intercalate_cons_eq, intercalate_cons_eq]
  simp [List.append_assoc]

theorem intercalate_singleton (sep x : List Nat) : List.intercalate sep [x] = x := by
  rw [intercalate_cons_eq]
  simp

/-- State of the decoder after a token and the blank that follows it. -/
theorem decode_token_blank (t : List Nat) (h32 : 32 ∉ t) (hne : t ≠ []) (text : List Nat)
    (sc : Nat) (sl : Bool) :
    (t ++ [32]).foldl decode_step ⟨text, [], sc, sl⟩ = ⟨text ++ resolve t, [], 1, false⟩ := by
  rw [List.foldl_append, decode_token t h32 hne text [] sc sl (Nat.zero_le _)]
  simp only [List.foldl_cons, List.foldl_nil, decode_step_blank, List.nil_append, resolve_take]
  rfl

/-- State of the decoder after a word of tokens and the blank that follows it. -/
theorem decode_tokens_blank (ts : List (List Nat)) (hts : ∀ t ∈ ts, t ≠ [] ∧ 32 ∉ t)
    (hne : ts ≠ []) (text : List Nat) (sc : Nat) (sl : Bool) :
    (List.intercalate [32] ts ++ [32]).foldl decode_step ⟨text, [], sc, sl⟩ =
      ⟨text ++ (ts.map resolve).flatten, [], 1, false⟩ := by
  induction ts generalizing text sc sl with
  | nil => exact absurd rfl hne
  | cons t rest ih =>
    obtain ⟨htne, ht32⟩ := hts t (List.mem_cons_self _ _)
    cases rest with
    | nil =>
      rw [intercalate_singleton, decode_token_blank t ht32 htne]
      simp
    | cons t1 rest1 =>
      rw [intercalate_cons_cons, List.append_assoc, List.foldl_append,
        decode_token_blank t ht32 htne,
        ih (fun x hx => hts x (List.mem_cons_of_mem _ hx)) (by simp)]
      simp [List.append_assoc]

/-- Text after a final word of tokens has been read and the letter buffer resolved. -/
theorem decode_tokens_end (ts : List (List Nat)) (hts : ∀ t ∈ ts, t ≠ [] ∧ 32 ∉ t)
    (text : List Nat) (sc : Nat) (sl : Bool) :
    flush_buffer ((List.intercalate [32] ts).foldl decode_step ⟨text, [], sc, sl⟩).text
        ((List.intercalate [32] ts).foldl decode_step ⟨text, [], sc, sl⟩).morse_buffer =
      text ++ (ts.map resolve).flatten := by
  induction ts generalizing text sc sl with
  | nil => simp [List.intercalate, flush_buffer_eq, resolve, show get_char_for_morse [] = 0 by decide]
  | cons t rest ih =>
    obtain ⟨htne, ht32⟩ := hts t (List.mem_cons_self _ _)
    cases rest with
    | nil =>
      rw [intercalate_singleton, decode_token t ht32 htne text [] sc sl (Nat.zero_le _)]
      simp [flush_buffer_eq, resolve_take]
    | cons t1 rest1 =>
      rw [intercalate_cons_cons, List.foldl_append, decode_token_blank t ht32 htne,
        ih (fun x hx => hts x (List.mem_cons_of_mem _ hx))]
      simp [List.append_assoc]

/-- Text decoded from words of tokens separated by three blanks. -/
theorem decode_words (ws : List (List (List Nat)))
    (hws : ∀ w ∈ ws, w ≠ [] ∧ ∀ t ∈ w, t ≠ [] ∧ 32 ∉ t)
    (text : List Nat) (sc : Nat) (sl : Bool) :
    flush_buffer
        ((List.intercalate [32, 32, 32] (ws.map (List.intercalate [32]))).foldl decode_step
          ⟨text, [], sc, sl⟩).text
        ((List.intercalate [32, 32, 32] (ws.map (List.intercalate [32]))).foldl decode_step
          ⟨text, [], sc, sl⟩).morse_buffer =
      text ++ List.intercalate [32] (ws.map (fun w => (w.map resolve).flatten)) := by
  induction ws generalizing text sc sl with
  | nil => simp [List.intercalate, flush_buffer_eq, resolve, show get_char_for_morse [] = 0 by decide]
  | cons w rest ih =>
    obtain ⟨hwne, hw⟩ := hws w (List.mem_cons_self _ _)
    cases rest with
    | nil =>
      simp only [List.map_cons, List.map_nil, intercalate_singleton]
      exact decode_tokens_end w hw text sc sl
    | cons w1 rest1 =>
      have h3 : ([32, 32, 32] : List Nat) = [32] ++ [32, 32] := rfl
      rw [List.map_cons, List.map_cons, intercalate_cons_cons, ← List.map_cons, h3,
        ← List.append_assoc, List.append_assoc _ [32, 32], List.foldl_append,
        decode_tokens_blank w hw hwne, List.foldl_append]
      simp only [List.foldl_cons, List.foldl_nil, decode_step_blank, Nat.reduceAdd,
        Nat.reduceEqDiff, if_false, if_true]
      rw [← h3, ih (fun x hx => hws x (List.mem_cons_of_mem _ hx))]
      rw [List.map_cons, List.map_cons, List.map_cons, intercalate_cons_cons]
      simp [resolve, show get_char_for_morse [] = 0 by decide, List.append_assoc]

theorem flatten_resolve (ts : List (List Nat)) :
    (ts.map resolve).flatten =
      (ts.filter (fun t => decide (t ∈ stored_codes))).map get_char_for_morse := by
  induction ts with
  | nil => rfl
  | cons t rest ih =>
    rw [List.map_cons, List.flatten_cons, ih, List.filter_cons]
    by_cases h : t ∈ stored_codes
    · simp [h, resolve, (get_char_for_morse_stored t h).1]
    · simp [h, resolve, get_char_for_morse_not_stored t h]

/-- C3. Decode silently drops unresolvable codes: for every list of non-empty tokens that
contain neither a blank nor a slash, `decode_from_morse` of the tokens joined by single
blanks is, in order, the characters of exactly those tokens that are stored codes of
the symbol table. The input `.- ...... -...` decodes to `AB`. -/
theorem C3_decode_drops_unresolvable (tokens : List (List Nat))
    (h : ∀ t ∈ tokens, t ≠ [] ∧ 32 ∉ t ∧ 47 ∉ t) :
    decode_from_morse (some (List.intercalate (str " ") tokens)) =
      some ((tokens.filter (fun t => decide (t ∈ stored_codes))).map get_char_for_morse) ∧
    (∀ t ∈ stored_codes, (⟨get_char_for_morse t, some t⟩ : MorseMapping) ∈ morse_table) ∧
    decode_from_morse (some (str ".- ...... -...")) = some (str "AB") := by
  refine ⟨?_, fun t ht => (get_char_for_morse_stored t ht).2, by decide⟩
  have h32 : str " " = [32] := by decide
  have h47 : 47 ∉ List.intercalate [32] tokens := by
    intro hm
    rcases mem_intercalate _ _ _ hm with h1 | ⟨t, ht, h1⟩
    · simp at h1
    · exact (h t ht).2.2 h1
  unfold decode_from_morse
  simp only [h32]
  rw [decode_loop_foldl _ h47,
    decode_tokens_end tokens (fun t ht => ⟨(h t ht).1, (h t ht).2.1⟩), flatten_resolve]
  rfl

theorem C3_decode_drops_unresolvable_witness :
    (∀ t ∈ [str "-.-.", str "*", str "--.-"], t ≠ [] ∧ 32 ∉ t ∧ 47 ∉ t) ∧
    decode_from_morse (some (List.intercalate (str " ") [str "-.-.", str "*", str "--.-"])) =
      some (str "CQ") :=
  ⟨by decide,
    (C3_decode_drops_unresolvable [str "-.-.", str "*", str "--.-"] (by decide)).1.trans
      (by decide)⟩

/-! ## Round trip -/

theorem table_forward_stored :
    ∀ u ∈ table_characters, ∃ code ∈ stored_codes,
      get_morse_for_char_loop u morse_table = some code ∧ get_char_for_morse code = u := by
  decide

theorem stored_codes_marks :
    ∀ code ∈ stored_codes, code ≠ [] ∧ ∀ m ∈ code, m = 46 ∨ m = 45 := by
  decide

theorem letter_token_spec (c : Nat) (h : in_table (toupper c)) :
    letter_token c ∈ stored_codes ∧ get_char_for_morse (letter_token c) = toupper c := by
  obtain ⟨code, hs, hl, hr⟩ := table_forward_stored (toupper c) h
  have : letter_token c = code := by
    unfold letter_token get_morse_for_char
    rw [hl]
  rw [this]
  exact ⟨hs, hr⟩

theorem letter_token_valid (c : Nat) (h : in_table (toupper c)) :
    letter_token c ≠ [] ∧ 32 ∉ letter_token c ∧ 47 ∉ letter_token c := by
  obtain ⟨hne, hm⟩ := stored_codes_marks _ (letter_token_spec c h).1
  refine ⟨hne, fun h32 => ?_, fun h47 => ?_⟩
  · rcases hm 32 h32 with h1 | h1 <;> omega
  · rcases hm 47 h47 with h1 | h1 <;> omega

theorem resolve_letter_token (c : Nat) (h : in_table (toupper c)) :
    resolve (letter_token c) = [toupper c] := by
  have h1 := letter_token_spec c h
  have h2 := (get_char_for_morse_stored _ h1.1).1
  unfold resolve
  rw [if_pos h2, h1.2]

theorem resolve_word (w : List Nat) (h : ∀ c ∈ w, in_table (toupper c)) :
    ((w.map letter_token).map resolve).flatten = w.map toupper := by
  induction w with
  | nil => rfl
  | cons c rest ih =>
    rw [List.map_cons, List.map_cons, List.flatten_cons,
      resolve_letter_token c (h c (List.mem_cons_self _ _)),
      ih (fun x hx => h x (List.mem_cons_of_mem _ hx))]
    rfl

theorem map_intercalate (f : Nat → Nat) (sep : List Nat) (xs : List (List Nat)) :
    (List.intercalate sep xs).map f = List.intercalate (sep.map f) (xs.map (List.map f)) := by
  cases xs with
  | nil => simp [List.intercalate]
  | cons x rest =>
    rw [List.map_cons, intercalate_cons_eq, intercalate_cons_eq]
    simp [List.map_flatten, List.map_map, Function.comp_def]

theorem mem_intercalate_of_mem (sep : List Nat) (xs : List (List Nat)) (x : List Nat)
    (c : Nat) (hx : x ∈ xs) (hc : c ∈ x) : c ∈ List.intercalate sep xs := by
  cases xs with
  | nil => simp at hx
  | cons y rest =>
    rw [intercalate_cons_eq]
    rcases List.mem_cons.mp hx with h | h
    · exact List.mem_append_left _ (h ▸ hc)
    · apply List.mem_append_right
      simp only [List.mem_flatten, List.mem_map]
      exact ⟨sep ++ x, ⟨x, h, rfl⟩, List.mem_append_right _ hc⟩

/-- A text without leading, trailing or doubled spaces is a list of non-empty words
without spaces, joined by single spaces. -/
theorem split_words (n : Nat) (text : List Nat) (hn : text.length ≤ n)
    (hlead : text.head? ≠ some 32) (htrail : text.getLast? ≠ some 32)
    (hdouble : ¬ [32, 32] <:+: text) :
    ∃ words, text = List.intercalate [32] words ∧ ∀ w ∈ words, w ≠ [] ∧ 32 ∉ w := by
  induction n generalizing text with
  | zero =>
    have : text = [] := List.length_eq_zero.mp (Nat.le_zero.mp hn)
    exact ⟨[], by simp [this, List.intercalate], by simp⟩
  | succ n ih =>
    cases text with
    | nil => exact ⟨[], by simp [List.intercalate], by simp⟩
    | cons c rest =>
      have hc : c ≠ 32 := fun h => hlead (by simp [h])
      cases rest with
      | nil =>
        refine ⟨[[c]], by rw [intercalate_singleton], ?_⟩
        intro w hw
        simp only [List.mem_singleton] at hw
        subst hw
        simpa using hc.symm
      | cons d rest1 =>
        have hlen : (d :: rest1).length ≤ n := by simpa using hn
        by_cases hd : d = 32
        · subst hd
          cases rest1 with
          | nil => exact absurd (by simp) htrail
          | cons e r =>
            have he : e ≠ 32 := by
              rintro rfl
              exact hdouble ⟨[c], r, rfl⟩
            obtain ⟨words, hwords, hvalid⟩ := ih (e :: r)
              (by simp at hlen ⊢; omega) (by simpa using he)
              (by simpa [List.getLast?_cons_cons] using htrail)
              (fun h => hdouble (List.infix_cons (List.infix_cons h)))
            cases words with
            | nil => simp [List.intercalate] at hwords
            | cons w1 ws =>
              refine ⟨[c] :: w1 :: ws, ?_, ?_⟩
              · rw [intercalate_cons_cons, ← hwords]; rfl
              · intro w hw
                rcases List.mem_cons.mp hw with h | h
                · subst h; simpa using hc.symm
                · exact hvalid w h
        · obtain ⟨words, hwords, hvalid⟩ := ih (d :: rest1) hlen (by simpa using hd)
            (by simpa [List.getLast?_cons_cons] using htrail)
            (fun h => hdouble (List.infix_cons h))
          cases words with
          | nil => simp [List.intercalate] at hwords
          | cons w1 ws =>
            refine ⟨(c :: w1) :: ws, ?_, ?_⟩
            · rw [intercalate_cons_eq] at hwords ⊢
              rw [List.cons_append, ← hwords]
            · intro w hw
              rcases List.mem_cons.mp hw with h | h
              · subst h
                refine ⟨by simp, fun h32 => ?_⟩
                rcases List.mem_cons.mp h32 with h1 | h1
                · exact hc h1.symm
                · exact (hvalid w1 (List.mem_cons_self _ _)).2 h1
              · exact hvalid w (List.mem_cons_of_mem _ h)

/-- C1. Round trip in three-blank mode: for every text made only of characters whose
uppercase form is in the symbol table and of single spaces (no leading space, no trailing
space, no two adjacent spaces), decoding the encoding of the text gives the text with
its letters uppercased. -/
theorem C1_round_trip (text : List Nat)
    (hchars : ∀ c ∈ text, c = 32 ∨ in_table (toupper c))
    (hlead : text.head? ≠ some 32) (htrail : text.getLast? ≠ some 32)
    (hdouble : ¬ [32, 32] <:+: text) :
    decode_from_morse (encode_to_morse (some text) false) = some (text.map toupper) := by
  obtain ⟨words, rfl, hvalid⟩ := split_words text.length text (Nat.le_refl _) hlead htrail hdouble
  have htable : ∀ w ∈ words, w ≠ [] ∧ ∀ c ∈ w, in_table (toupper c) := by
    intro w hw
    refine ⟨(hvalid w hw).1, fun c hc => ?_⟩
    rcases hchars c (mem_intercalate_of_mem _ _ w c hw hc) with h | h
    · exact absurd (h ▸ hc) (hvalid w hw).2
    · exact h
  cases words with
  | nil => decide
  | cons w ws =>
    rw [encode_to_morse_words false w ws htable]
    have hcode : (w :: ws).map word_code =
        ((w :: ws).map (List.map letter_token)).map (List.intercalate [32]) := by
      rw [List.map_map]
      rfl
    have hsep : word_separator false = [32, 32, 32] := by decide
    have hvalid2 : ∀ x ∈ (w :: ws).map (List.map letter_token),
        x ≠ [] ∧ ∀ t ∈ x, t ≠ [] ∧ 32 ∉ t := by
      intro x hx
      obtain ⟨w1, hw1, rfl⟩ := List.mem_map.mp hx
      refine ⟨by simpa using (htable w1 hw1).1, fun t ht => ?_⟩
      obtain ⟨c, hc, rfl⟩ := List.mem_map.mp ht
      have := letter_token_valid c ((htable w1 hw1).2 c hc)
      exact ⟨this.1, this.2.1⟩
    have h47 : 47 ∉ List.intercalate [32, 32, 32]
        (((w :: ws).map (List.map letter_token)).map (List.intercalate [32])) := by
      intro hm
      rcases mem_intercalate _ _ _ hm with h1 | ⟨x, hx, h1⟩
      · simp at h1
      · obtain ⟨y, hy, rfl⟩ := List.mem_map.mp hx
        obtain ⟨w1, hw1, rfl⟩ := List.mem_map.mp hy
        rcases mem_intercalate _ _ _ h1 with h2 | ⟨t, ht, h2⟩
        · simp at h2
        · obtain ⟨c, hc, rfl⟩ := List.mem_map.mp ht
          exact (letter_token_valid c ((htable w1 hw1).2 c hc)).2.2 h2
    rw [hcode, hsep]
    unfold decode_from_morse
    simp only
    rw [decode_loop_foldl _ h47, decode_words _ hvalid2, List.nil_append, List.map_map,
      map_intercalate]
    congr 2
    apply List.map_congr_left
    intro w1 hw1
    exact resolve_word w1 (htable w1 hw1).2

theorem C1_round_trip_witness :
    (∀ c ∈ str "sos 73", c = 32 ∨ in_table (toupper c)) ∧
    (str "sos 73").head? ≠ some 32 ∧ (str "sos 73").getLast? ≠ some 32 ∧
    ¬ [32, 32] <:+: str "sos 73" ∧
    decode_from_morse (encode_to_morse (some (str "sos 73")) false) = some (str "SOS 73") :=
  ⟨by decide, by decide, by decide, by decide,
    (C1_round_trip (str "sos 73") (by decide) (by decide) (by decide) (by decide)).trans
      (by decide)⟩

/-! ## The fuel of the loops is enough -/

theorem encode_loop_unfold (m : Bool) (c : Nat) (rest : List Nat) (s : EncState) :
    ∃ rest1 s1, rest1.length ≤ rest.length ∧
      ∀ fuel, encode_loop m (fuel + 1) (c :: rest) s = encode_loop m fuel rest1 s1 := by
  by_cases hc : c < 128
  · exact ⟨rest, encode_step m s c, Nat.le_refl _,
      fun fuel => encode_loop_cons m fuel c rest s (Or.inl hc)⟩
  · exact ⟨rest.drop (utf8_bytes c - 1), _, by simp,
      fun fuel => encode_loop_cons_high m fuel c rest s (by omega)⟩

/-- The loop of `encode_to_morse` ends within as many iterations as the text has bytes:
more fuel does not change the result. -/
theorem encode_loop_fuel (m : Bool) (n : Nat) (l : List Nat) (s : EncState)
    (h : l.length ≤ n) : encode_loop m n l s = encode_loop m l.length l s := by
  induction n using Nat.strong_induction_on generalizing l s with
  | _ n ih =>
    cases l with
    | nil => rw [encode_loop_nil, encode_loop_nil]
    | cons c rest =>
      obtain ⟨k, rfl⟩ : ∃ k, n = k + 1 := ⟨n - 1, by simp at h; omega⟩
      obtain ⟨rest1, s1, hlen, hstep⟩ := encode_loop_unfold m c rest s
      have hk : rest.length ≤ k := by simpa using h
      rw [List.length_cons, hstep, hstep, ih k (Nat.lt_succ_self k) rest1 s1 (by omega),
        ih rest.length (by omega) rest1 s1 hlen]

theorem decode_loop_nil (fuel : Nat) (s : DecState) : decode_loop fuel [] s = s := by
  cases fuel <;> rfl

theorem decode_loop_unfold (c : Nat) (rest : List Nat) (s : DecState) :
    ∃ rest1 s1, rest1.length ≤ rest.length ∧
      ∀ fuel, decode_loop (fuel + 1) (c :: rest) s = decode_loop fuel rest1 s1 := by
  by_cases hc : c = 32
  · by_cases h1 : s.space_count + 1 = 1 ∧ rest.getD 0 0 = 47 ∧ rest.getD 1 0 = 32
    · exact ⟨rest.drop 2, ⟨flush_buffer s.text s.morse_buffer ++ [32], [], 0, true⟩, by simp,
        fun fuel => by rw [decode_loop, if_pos hc, if_pos h1]⟩
    · by_cases h2 : s.space_count + 1 = 3
      · exact ⟨rest,
          ⟨flush_buffer s.text s.morse_buffer ++ [32], [], 0, s.in_slash_wordspacer⟩,
          Nat.le_refl _, fun fuel => by rw [decode_loop, if_pos hc, if_neg h1, if_pos h2]⟩
      · exact ⟨rest,
          ⟨flush_buffer s.text s.morse_buffer, [], s.space_count + 1, s.in_slash_wordspacer⟩,
          Nat.le_refl _, fun fuel => by rw [decode_loop, if_pos hc, if_neg h1, if_neg h2]⟩
  · exact ⟨rest,
      ⟨s.text, if s.morse_buffer.length < MAX_MORSE_CODE_LENGTH then s.morse_buffer ++ [c]
        else s.morse_buffer, 0, false⟩,
      Nat.le_refl _, fun fuel => by rw [decode_loop, if_neg hc]⟩

/-- The loop of `decode_from_morse` ends within as many iterations as the input has
bytes: more fuel does not change the result. -/
theorem decode_loop_fuel (n : Nat) (l : List Nat) (s : DecState) (h : l.length ≤ n) :
    decode_loop n l s = decode_loop l.length l s := by
  induction n using Nat.strong_induction_on generalizing l s with
  | _ n ih =>
    cases l with
    | nil => rw [decode_loop_nil, decode_loop_nil]
    | cons c rest =>
      obtain ⟨k, rfl⟩ : ∃ k, n = k + 1 := ⟨n - 1, by simp at h; omega⟩
      obtain ⟨rest1, s1, hlen, hstep⟩ := decode_loop_unfold c rest s
      have hk : rest.length ≤ k := by simpa using h
      rw [List.length_cons, hstep, hstep, ih k (Nat.lt_succ_self k) rest1 s1 (by omega),
        ih rest.length (by omega) rest1 s1 hlen]

/-! ## Case of the letters -/

theorem toupper_eq_iff_small (c k : Nat) (hk : k < 65) : toupper c = k ↔ c = k := by
  unfold toupper
  split_ifs <;> omega

theorem toupper_lt_128 (c : Nat) : toupper c < 128 ↔ c < 128 := by
  unfold toupper
  split_ifs <;> omega

theorem get_morse_for_char_toupper (c : Nat) :
    get_morse_for_char (toupper c) = get_morse_for_char c := by
  unfold get_morse_for_char
  rw [toupper_idem]

theorem encode_step_toupper (m : Bool) (s : EncState) (c : Nat) :
    encode_step m s (toupper c) = encode_step m s c := by
  unfold encode_step letter_token
  simp only [get_morse_for_char_toupper, toupper_eq_iff_small c 10 (by omega),
    toupper_eq_iff_small c 13 (by omega), toupper_eq_iff_small c 32 (by omega)]

theorem encode_loop_toupper (m : Bool) (fuel : Nat) (l : List Nat) (s : EncState) :
    encode_loop m fuel (l.map toupper) s = encode_loop m fuel l s := by
  induction fuel generalizing l s with
  | zero => rfl
  | succ n ih =>
    cases l with
    | nil => rfl
    | cons c rest =>
      rw [List.map_cons]
      by_cases hc : c < 128
      · rw [encode_loop_cons m n _ _ s (Or.inl ((toupper_lt_128 c).mpr hc)),
          encode_loop_cons m n c rest s (Or.inl hc), encode_step_toupper, ih]
      · have hu : toupper c = c := by unfold toupper; split_ifs <;> omega
        rw [hu, encode_loop_cons_high m n c _ s (by omega),
          encode_loop_cons_high m n c rest s (by omega), ← List.map_drop, ih]

/-- On the bytes of the text alone (`encode_loop`), a text and its uppercase form take
the same branches and emit the same tokens. -/
theorem encode_to_morse_toupper (text : List Nat) (m : Bool) :
    encode_to_morse (some text) m = encode_to_morse (some (text.map toupper)) m := by
  unfold encode_to_morse
  simp only [List.length_map]
  rw [encode_loop_toupper]

/-! ## Line feeds and carriage returns -/

theorem filter_drop_of_take (p : Nat → Bool) (l : List Nat) (k : Nat)
    (h : ∀ x ∈ l.take k, p x = true) : (l.filter p).drop k = (l.drop k).filter p := by
  induction l generalizing k with
  | nil => simp
  | cons x xs ih =>
    cases k with
    | zero => simp
    | succ k =>
      have hx : p x = true := h x (by simp)
      rw [List.filter_cons_of_pos hx, List.drop_succ_cons, List.drop_succ_cons]
      exact ih k (fun y hy => h y (by simp [hy]))

/-! ## Command-line options -/

/-- C13. Evaluation of `parse_options` where the claim fails: with an encode flag followed
by a decode flag the function returns 0 (the decode flag clears `encode` before the test
of the two flags), while with the decode flag first it returns -1. -/
theorem C13_encode_then_decode_accepted :
    (parse_options [⟨'e'.toNat, none⟩, ⟨'d'.toNat, none⟩] []).1 = 0 ∧
    (parse_options [⟨'e'.toNat, none⟩, ⟨'d'.toNat, none⟩] []).2.encode = false ∧
    (parse_options [⟨'e'.toNat, none⟩, ⟨'d'.toNat, none⟩] []).2.decode = true ∧
    (parse_options [⟨'d'.toNat, none⟩, ⟨'e'.toNat, none⟩] []).1 = -1 := by
  decide

/-! ## Leading spaces -/

/-- C14. Evaluation of `encode_to_morse` where the claim fails: of two leading spaces
the second one emits a word separator in front of the first word. -/
theorem C14_second_leading_space_emits :
    encode_to_morse (some (str "  A")) false = some (str "   .-") ∧
    encode_to_morse (some (str "  A")) true = some (str " / .-") ∧
    encode_to_morse (some (str " A")) false = some (str ".-") ∧
    encode_to_morse (some (str "A")) false = some (str ".-") := by
  decide

/-! ## Steps of the decoder -/

/-- One iteration of the loop of `decode_from_morse` where the slash pattern does not
apply. -/
theorem decode_loop_cons (fuel c : Nat) (rest : List Nat) (s : DecState)
    (h : ¬ (c = 32 ∧ s.space_count + 1 = 1 ∧ rest.getD 0 0 = 47 ∧ rest.getD 1 0 = 32)) :
    decode_loop (fuel + 1) (c :: rest) s = decode_loop fuel rest (decode_step s c) := by
  rw [decode_loop]
  unfold decode_step
  by_cases hc : c = 32
  · have h1 : ¬ (s.space_count + 1 = 1 ∧ rest.getD 0 0 = 47 ∧ rest.getD 1 0 = 32) :=
      fun h2 => h ⟨hc, h2⟩
    rw [if_pos hc, if_neg h1, if_pos hc]
    by_cases h3 : s.space_count + 1 = 3
    · rw [if_pos h3, if_pos h3]
    · rw [if_neg h3, if_neg h3]
  · rw [if_neg hc, if_neg hc]

/-- One iteration of the loop of `decode_from_morse` on the slash word separator. -/
theorem decode_loop_slash (fuel : Nat) (rest : List Nat) (s : DecState)
    (h : s.space_count = 0) :
    decode_loop (fuel + 1) (32 :: 47 :: 32 :: rest) s =
      decode_loop fuel rest ⟨flush_buffer s.text s.morse_buffer ++ [32], [], 0, true⟩ := by
  rw [decode_loop]
  simp [h]

theorem decode_run_nil (s : DecState) : decode_run [] s = s := rfl

theorem decode_run_cons (c : Nat) (rest : List Nat) (s : DecState)
    (h : ¬ (c = 32 ∧ s.space_count + 1 = 1 ∧ rest.getD 0 0 = 47 ∧ rest.getD 1 0 = 32)) :
    decode_run (c :: rest) s = decode_run rest (decode_step s c) := by
  unfold decode_run
  rw [List.length_cons, decode_loop_cons _ _ _ _ h]

theorem decode_run_slash (rest : List Nat) (s : DecState) (h : s.space_count = 0) :
    decode_run (32 :: 47 :: 32 :: rest) s =
      decode_run rest ⟨flush_buffer s.text s.morse_buffer ++ [32], [], 0, true⟩ := by
  unfold decode_run
  rw [List.length_cons, decode_loop_slash _ _ _ h, decode_loop_fuel _ _ _ (by simp; omega)]

theorem decode_run_foldl (l : List Nat) (h47 : 47 ∉ l) (s : DecState) :
    decode_run l s = l.foldl decode_step s :=
  decode_loop_foldl l h47 s

theorem getLast?_tail_ne (c : Nat) (rest : List Nat) (h : (c :: rest).getLast? ≠ some 47) :
    rest.getLast? ≠ some 47 := by
  cases rest with
  | nil => simp
  | cons d r => rwa [List.getLast?_cons_cons] at h

/-- The decoder runs over a concatenation piece by piece when no slash stands at the
seam. -/
theorem decode_run_append (n : Nat) (a b : List Nat) (s : DecState) (hn : a.length ≤ n)
    (ha : a.getLast? ≠ some 47) (hb : b.head? ≠ some 47) :
    decode_run (a ++ b) s = decode_run b (decode_run a s) := by
  induction n generalizing a s with
  | zero =>
    have : a = [] := List.length_eq_zero.mp (Nat.le_zero.mp hn)
    subst this
    rfl
  | succ n ih =>
    cases a with
    | nil => rfl
    | cons c rest =>
      have hlen : rest.length ≤ n := by simpa using hn
      by_cases hfire : c = 32 ∧ s.space_count + 1 = 1 ∧ rest.getD 0 0 = 47 ∧ rest.getD 1 0 = 32
      · obtain ⟨hc, hsc, h0, h1⟩ := hfire
        subst hc
        cases rest with
        | nil => simp at h0
        | cons d r =>
          simp only [List.getD_cons_zero] at h0
          subst h0
          cases r with
          | nil => simp at h1
          | cons e r1 =>
            simp only [List.getD_cons_succ, List.getD_cons_zero] at h1
            subst h1
            have hsc0 : s.space_count = 0 := by omega
            rw [List.cons_append, List.cons_append, List.cons_append,
              decode_run_slash _ _ hsc0, decode_run_slash _ _ hsc0]
            exact ih r1 _ (by simp at hlen; omega)
              (getLast?_tail_ne _ _ (getLast?_tail_ne _ _ (getLast?_tail_ne _ _ ha)))
      · have hfire2 : ¬ (c = 32 ∧ s.space_count + 1 = 1 ∧ (rest ++ b).getD 0 0 = 47 ∧
            (rest ++ b).getD 1 0 = 32) := by
          rintro ⟨hc, hsc, h0, h1⟩
          cases rest with
          | nil =>
            cases b with
            | nil => simp at h0
            | cons d r =>
              simp only [List.nil_append, List.getD_cons_zero] at h0
              exact hb (by simp [h0])
          | cons d r =>
            simp only [List.cons_append, List.getD_cons_zero] at h0
            cases r with
            | nil => exact ha (by simp [h0])
            | cons e r1 =>
              simp only [List.cons_append, List.getD_cons_succ, List.getD_cons_zero] at h1
              exact hfire ⟨hc, hsc, by simp [h0], by simp [h1]⟩
        rw [List.cons_append, decode_run_cons _ _ _ hfire2, decode_run_cons _ _ _ hfire]
        exact ih rest _ hlen (getLast?_tail_ne _ _ ha)

/-! ## Runs of blanks -/

theorem resolve_nil : resolve [] = [] := by decide

/-- What the decoder needs to know of a table entry. -/
theorem entry_code (x : Nat) (cx : List Nat) (h : (⟨x, some cx⟩ : MorseMapping) ∈ morse_table) :
    cx ≠ [] ∧ 32 ∉ cx ∧ 47 ∉ cx ∧ resolve cx = [x] := by
  have hs : cx ∈ stored_codes := List.mem_filterMap.mpr ⟨_, h, rfl⟩
  obtain ⟨hne, hm⟩ := stored_codes_marks cx hs
  have h1 := table_reverse_lookup _ h
  simp at h1
  refine ⟨hne, fun h32 => ?_, fun h47 => ?_, ?_⟩
  · rcases hm 32 h32 with h2 | h2 <;> omega
  · rcases hm 47 h47 with h2 | h2 <;> omega
  · unfold resolve
    rw [h1.1, if_pos h1.2]

/-- State of the decoder after a run of blanks read with an empty letter buffer. -/
theorem decode_blanks (n : Nat) (text : List Nat) (sc : Nat) (fl : Bool) (hsc : sc < 3) :
    (List.replicate n 32).foldl decode_step ⟨text, [], sc, fl⟩ =
      ⟨text ++ List.replicate ((sc + n) / 3) 32, [], (sc + n) % 3, fl⟩ := by
  induction n generalizing text sc with
  | zero =>
    have h1 : sc / 3 = 0 := by omega
    have h2 : sc % 3 = sc := by omega
    simp [h1, h2]
  | succ n ih =>
    rw [List.replicate_succ, List.foldl_cons, decode_step_blank, resolve_nil, List.append_nil]
    by_cases h3 : sc + 1 = 3
    · rw [if_pos h3, ih _ 0 (by omega)]
      have h4 : (sc + (n + 1)) / 3 = (0 + n) / 3 + 1 := by omega
      have h5 : (sc + (n + 1)) % 3 = (0 + n) % 3 := by omega
      rw [h4, h5, List.replicate_succ, List.append_assoc]
      rfl
    · rw [if_neg h3, ih _ (sc + 1) (by omega)]
      have h4 : (sc + (n + 1)) = (sc + 1 + n) := by omega
      rw [h4]

/-- Text decoded from two codes with a run of `n >= 1` blanks between them. -/
theorem decode_blank_run (x y : Nat) (cx cy : List Nat) (n : Nat)
    (hx : (⟨x, some cx⟩ : MorseMapping) ∈ morse_table)
    (hy : (⟨y, some cy⟩ : MorseMapping) ∈ morse_table) (hn : 1 ≤ n) :
    decode_from_morse (some (cx ++ List.replicate n 32 ++ cy)) =
      some (x :: List.replicate (n / 3) 32 ++ [y]) := by
  obtain ⟨hxne, hx32, hx47, hxr⟩ := entry_code x cx hx
  obtain ⟨hyne, hy32, hy47, hyr⟩ := entry_code y cy hy
  obtain ⟨k, rfl⟩ : ∃ k, n = k + 1 := ⟨n - 1, by omega⟩
  have h47 : 47 ∉ cx ++ List.replicate (k + 1) 32 ++ cy := by
    simp only [List.mem_append, List.mem_replicate, not_or]
    exact ⟨⟨hx47, by omega⟩, hy47⟩
  unfold decode_from_morse
  simp only
  rw [decode_loop_foldl _ h47, List.foldl_append, List.foldl_append,
    decode_token cx hx32 hxne [] [] 0 false (Nat.zero_le _), List.replicate_succ,
    List.foldl_cons, decode_step_blank]
  simp only [Nat.zero_add, Nat.reduceEqDiff, if_false, List.nil_append, resolve_take]
  rw [decode_blanks k _ 1 false (by omega),
    decode_token cy hy32 hyne _ [] _ false (Nat.zero_le _), flush_buffer_eq, List.nil_append,
    resolve_take, hxr, hyr]
  have : (1 + k) / 3 = (k + 1) / 3 := by rw [Nat.add_comm]
  simp [this]

/-- The claim C15 as written fails at a run of six blanks, which decodes to two
spaces. -/
theorem C15_six_blanks_two_spaces :
    (⟨69, some (str ".")⟩ : MorseMapping) ∈ morse_table ∧
    decode_from_morse (some (str "." ++ List.replicate 6 32 ++ str ".")) =
      some [69, 32, 32, 69] ∧
    decode_from_morse (some (str "." ++ List.replicate 6 32 ++ str ".")) ≠
      some [69, 32, 69] := by
  decide

/-- C15 (amended). Runs of three, four or five blanks emit one space: for all table
characters `x` and `y` and every `n` with `3 <= n <= 5`, `decode_from_morse` of the code of
`x`, then `n` consecutive blanks, then the code of `y` yields exactly `x`, one space,
`y`. -/
theorem C15_blank_run_one_space (x y : Nat) (cx cy : List Nat) (n : Nat)
    (hx : (⟨x, some cx⟩ : MorseMapping) ∈ morse_table)
    (hy : (⟨y, some cy⟩ : MorseMapping) ∈ morse_table) (h3 : 3 ≤ n) (h5 : n ≤ 5) :
    decode_from_morse (some (cx ++ List.replicate n 32 ++ cy)) = some [x, 32, y] := by
  rw [decode_blank_run x y cx cy n hx hy (by omega)]
  have : n / 3 = 1 := by omega
  rw [this]
  rfl

theorem C15_blank_run_one_space_witness :
    (⟨65, some (str ".-")⟩ : MorseMapping) ∈ morse_table ∧
    (⟨66, some (str "-...")⟩ : MorseMapping) ∈ morse_table ∧ 3 ≤ 5 ∧ 5 ≤ 5 ∧
    decode_from_morse (some (str ".-" ++ List.replicate 5 32 ++ str "-...")) =
      some [65, 32, 66] :=
  ⟨by decide, by decide, by decide, by decide,
    C15_blank_run_one_space 65 66 (str ".-") (str "-...") 5 (by decide) (by decide)
      (by decide) (by decide)⟩

/-- C16. Exact-count reset of the blank run: for all table characters `x` and `y` and
every `n >= 1`, `decode_from_morse` of the code of `x`, then `n` consecutive blanks, then
the code of `y` yields `x`, then `n / 3` (rounded down) spaces, then `y`. -/
theorem C16_blank_run_exact_count (x y : Nat) (cx cy : List Nat) (n : Nat)
    (hx : (⟨x, some cx⟩ : MorseMapping) ∈ morse_table)
    (hy : (⟨y, some cy⟩ : MorseMapping) ∈ morse_table) (hn : 1 ≤ n) :
    decode_from_morse (some (cx ++ List.replicate n 32 ++ cy)) =
      some ([x] ++ List.replicate (n / 3) 32 ++ [y]) :=
  decode_blank_run x y cx cy n hx hy hn

theorem C16_blank_run_exact_count_witness :
    (⟨65, some (str ".-")⟩ : MorseMapping) ∈ morse_table ∧
    (⟨66, some (str "-...")⟩ : MorseMapping) ∈ morse_table ∧ 1 ≤ 7 ∧
    decode_from_morse (some (str ".-" ++ List.replicate 7 32 ++ str "-...")) =
      some [65, 32, 32, 66] :=
  ⟨by decide, by decide, by decide,
    C16_blank_run_exact_count 65 66 (str ".-") (str "-...") 7 (by decide) (by decide)
      (by decide)⟩

/-! ## A slash that is not a word separator -/

/-- The claim C17 as written fails: the token `/` is not a stored code (the table
stores `-..-.` for the character `/`), so the decoder drops it. -/
theorem C17_slash_token_dropped :
    (⟨69, some (str ".")⟩ : MorseMapping) ∈ morse_table ∧
    get_char_for_morse (str "/") = 0 ∧
    decode_from_morse (some (str "." ++ str "  " ++ str "/" ++ str " " ++ str ".")) =
      some (str "EE") ∧
    decode_from_morse (some (str "." ++ str "  " ++ str "/" ++ str " " ++ str ".")) ≠
      some (str "E/E") := by
  decide

/-- C17 (amended). A slash that does not follow exactly one blank is not a word
separator; it is read as the one-character token `/`, which is not a stored code: for
all table characters `x` and `y`, `decode_from_morse` of the code of `x`, two blanks, `/`,
one blank, the code of `y` emits no space and yields `x`, `y`. -/
theorem C17_slash_after_two_blanks (x y : Nat) (cx cy : List Nat)
    (hx : (⟨x, some cx⟩ : MorseMapping) ∈ morse_table)
    (hy : (⟨y, some cy⟩ : MorseMapping) ∈ morse_table) :
    decode_from_morse (some (cx ++ str "  " ++ str "/" ++ str " " ++ cy)) = some [x, y] := by
  obtain ⟨hxne, hx32, hx47, hxr⟩ := entry_code x cx hx
  obtain ⟨hyne, hy32, hy47, hyr⟩ := entry_code y cy hy
  have hshape : cx ++ str "  " ++ str "/" ++ str " " ++ cy =
      (cx ++ [32]) ++ (32 :: 47 :: 32 :: cy) := by
    have h1 : str "  " = [32, 32] := by decide
    have h2 : str "/" = [47] := by decide
    have h3 : str " " = [32] := by decide
    rw [h1, h2, h3]
    simp
  have h47 : 47 ∉ cx ++ [32] := by
    simp only [List.mem_append, List.mem_singleton, not_or]
    exact ⟨hx47, by omega⟩
  have hla : cy.getD 0 0 ≠ 47 := by
    cases cy with
    | nil => exact absurd rfl hyne
    | cons d r =>
      intro h
      simp only [List.getD_cons_zero] at h
      exact hy47 (by simp [h])
  have hr47 : resolve [47] = [] := by decide
  have hrun : decode_run (cx ++ str "  " ++ str "/" ++ str " " ++ cy) ⟨[], [], 0, false⟩ =
      ⟨[x], cy.take MAX_MORSE_CODE_LENGTH, 0, false⟩ := by
    rw [hshape, decode_run_append _ _ _ _ (Nat.le_refl _) (by simp) (by simp),
      decode_run_foldl _ h47, decode_token_blank cx hx32 hxne, hxr,
      decode_run_cons _ _ _ (by simp), decode_step_blank,
      decode_run_cons _ _ _ (by simp)]
    simp only [Nat.reduceAdd, Nat.reduceEqDiff, if_false, resolve_nil, List.append_nil,
      List.nil_append]
    have hstep : decode_step ⟨[x], [], 2, false⟩ 47 = ⟨[x], [47], 0, false⟩ := by
      simp [decode_step, MAX_MORSE_CODE_LENGTH]
    rw [hstep, decode_run_cons _ _ _ (fun h => hla h.2.2.1), decode_step_blank, hr47]
    simp only [Nat.zero_add, Nat.reduceEqDiff, if_false, List.append_nil]
    rw [decode_run_foldl _ hy47, decode_token cy hy32 hyne _ [] _ _ (Nat.zero_le _)]
    simp
  unfold decode_from_morse
  simp only
  have hrun2 := hrun
  unfold decode_run at hrun2
  rw [hrun2, flush_buffer_eq, resolve_take, hyr]
  rfl

theorem C17_slash_after_two_blanks_witness :
    (⟨65, some (str ".-")⟩ : MorseMapping) ∈ morse_table ∧
    (⟨66, some (str "-...")⟩ : MorseMapping) ∈ morse_table ∧
    decode_from_morse (some (str ".-" ++ str "  " ++ str "/" ++ str " " ++ str "-...")) =
      some [65, 66] :=
  ⟨by decide, by decide,
    C17_slash_after_two_blanks 65 66 (str ".-") (str "-...") (by decide) (by decide)⟩

/-! ## The two word separators decode alike -/

theorem getLast?_append_token (a t : List Nat) (hne : t ≠ []) (h47 : 47 ∉ t) :
    (a ++ t).getLast? ≠ some 47 := by
  rw [List.getLast?_append_of_ne_nil _ hne]
  intro h
  exact h47 (List.mem_of_getLast?_eq_some h)

theorem head?_token (t : List Nat) (h47 : 47 ∉ t) : t.head? ≠ some 47 := by
  cases t with
  | nil => simp
  | cons c r =>
    intro h
    simp only [List.head?_cons, Option.some.injEq] at h
    exact h47 (by simp [h])

/-- The decoder state after one more piece without a slash. -/
theorem decode_run_append_foldl (a t : List Nat) (s : DecState)
    (ha : a.getLast? ≠ some 47) (h47 : 47 ∉ t) :
    decode_run (a ++ t) s = t.foldl decode_step (decode_run a s) := by
  rw [decode_run_append _ a t s (Nat.le_refl _) ha (head?_token t h47), decode_run_foldl _ h47]

theorem same_decoding_token (a b t : List Nat) (h : same_decoding a b)
    (hne : t ≠ []) (h32 : 32 ∉ t) (h47 : 47 ∉ t) : same_decoding (a ++ t) (b ++ t) := by
  obtain ⟨text, buf, f1, f2, ha, hb, hbuf, hla, hlb⟩ := h
  refine ⟨text, (buf ++ t).take MAX_MORSE_CODE_LENGTH, false, false, ?_, ?_, ?_,
    getLast?_append_token a t hne h47, getLast?_append_token b t hne h47⟩
  · rw [decode_run_append_foldl a t _ hla h47, ha, decode_token t h32 hne _ _ _ _ hbuf]
  · rw [decode_run_append_foldl b t _ hlb h47, hb, decode_token t h32 hne _ _ _ _ hbuf]
  · rw [List.length_take]
    exact Nat.min_le_left _ _

theorem same_decoding_blank_token (a b t : List Nat) (h : same_decoding a b)
    (hne : t ≠ []) (h32 : 32 ∉ t) (h47 : 47 ∉ t) :
    same_decoding (a ++ (32 :: t)) (b ++ (32 :: t)) := by
  obtain ⟨text, buf, f1, f2, ha, hb, hbuf, hla, hlb⟩ := h
  have h47c : 47 ∉ 32 :: t := by
    intro hm
    rcases List.mem_cons.mp hm with h1 | h1
    · omega
    · exact h47 h1
  have hstep : ∀ f, (32 :: t).foldl decode_step ⟨text, buf, 0, f⟩ =
      ⟨text ++ resolve buf, t.take MAX_MORSE_CODE_LENGTH, 0, false⟩ := by
    intro f
    rw [List.foldl_cons, decode_step_blank]
    simp only [Nat.zero_add, Nat.reduceEqDiff, if_false]
    rw [decode_token t h32 hne _ _ _ _ (Nat.zero_le _), List.nil_append]
  refine ⟨text ++ resolve buf, t.take MAX_MORSE_CODE_LENGTH, false, false, ?_, ?_, ?_,
    getLast?_append_token a _ (by simp) h47c, getLast?_append_token b _ (by simp) h47c⟩
  · rw [decode_run_append_foldl a _ _ hla h47c, ha, hstep]
  · rw [decode_run_append_foldl b _ _ hlb h47c, hb, hstep]
  · rw [List.length_take]
    exact Nat.min_le_left _ _

theorem same_decoding_word_separator (a b : List Nat) (h : same_decoding a b) :
    same_decoding (a ++ word_separator true) (b ++ word_separator false) := by
  obtain ⟨text, buf, f1, f2, ha, hb, hbuf, hla, hlb⟩ := h
  have ht : word_separator true = [32, 47, 32] := by decide
  have hf : word_separator false = [32, 32, 32] := by decide
  rw [ht, hf]
  refine ⟨text ++ resolve buf ++ [32], [], true, f2, ?_, ?_, Nat.zero_le _, ?_, ?_⟩
  · rw [decode_run_append _ a _ _ (Nat.le_refl _) hla (by simp), ha,
      decode_run_slash _ _ rfl, decode_run_nil, flush_buffer_eq]
  · rw [decode_run_append_foldl b _ _ hlb (by simp), hb]
    simp only [List.foldl_cons, List.foldl_nil, decode_step_blank, Nat.zero_add,
      Nat.reduceAdd, Nat.reduceEqDiff, if_false, if_true, resolve_nil, List.append_nil]
  · rw [List.getLast?_append_of_ne_nil _ (by simp)]
    simp
  · rw [List.getLast?_append_of_ne_nil _ (by simp)]
    simp

theorem get_morse_for_char_loop_stored (u : Nat) (tbl : List MorseMapping) (code : List Nat)
    (h : get_morse_for_char_loop u tbl = some code) :
    code ∈ tbl.filterMap (fun m => m.morse_code) := by
  induction tbl with
  | nil => simp [get_morse_for_char_loop] at h
  | cons e rest ih =>
    obtain ⟨ch, mc⟩ := e
    cases mc with
    | none => simp [get_morse_for_char_loop] at h
    | some c1 =>
      simp only [get_morse_for_char_loop] at h
      rw [List.filterMap_cons_some (by rfl : (fun m : MorseMapping => m.morse_code) ⟨ch, some c1⟩ = some c1)]
      by_cases hch : ch = u
      · rw [if_pos hch] at h
        simp only [Option.some.injEq] at h
        rw [← h]
        exact List.mem_cons_self _ _
      · rw [if_neg hch] at h
        exact List.mem_cons_of_mem _ (ih h)

/-- The token of every character is a non-empty string without blank and without
slash. -/
theorem letter_token_shape (c : Nat) :
    letter_token c ≠ [] ∧ 32 ∉ letter_token c ∧ 47 ∉ letter_token c := by
  unfold letter_token
  cases hm : get_morse_for_char c with
  | none => decide
  | some code =>
    have hs : code ∈ stored_codes := get_morse_for_char_loop_stored _ _ _ hm
    obtain ⟨hne, hmarks⟩ := stored_codes_marks code hs
    refine ⟨hne, fun h32 => ?_, fun h47 => ?_⟩
    · rcases hmarks 32 h32 with h1 | h1 <;> omega
    · rcases hmarks 47 h47 with h1 | h1 <;> omega

theorem same_decoding_marks_tail (k : Nat) (a b : List Nat) (h : same_decoding a b) :
    same_decoding (a ++ (List.replicate k (LETTER_SEPARATOR ++ UNKNOWN_CHAR)).flatten)
      (b ++ (List.replicate k (LETTER_SEPARATOR ++ UNKNOWN_CHAR)).flatten) := by
  induction k generalizing a b with
  | zero => simpa using h
  | succ k ih =>
    have key : LETTER_SEPARATOR ++ UNKNOWN_CHAR = 32 :: UNKNOWN_CHAR := rfl
    have h1 := ih _ _ (same_decoding_blank_token a b UNKNOWN_CHAR h (by decide) (by decide)
      (by decide))
    rw [List.replicate_succ, List.flatten_cons, key]
    rw [key, List.append_assoc, List.append_assoc] at h1
    exact h1

theorem same_decoding_marks (n : Nat) (fl : Bool) (a b : List Nat) (h : same_decoding a b) :
    same_decoding
      (a ++ (if fl then [] else LETTER_SEPARATOR) ++
        List.intercalate LETTER_SEPARATOR (List.replicate (n + 1) UNKNOWN_CHAR))
      (b ++ (if fl then [] else LETTER_SEPARATOR) ++
        List.intercalate LETTER_SEPARATOR (List.replicate (n + 1) UNKNOWN_CHAR)) := by
  rw [List.replicate_succ, intercalate_cons_eq, List.map_replicate, ← List.append_assoc,
    ← List.append_assoc]
  apply same_decoding_marks_tail
  cases fl with
  | true =>
    simp only [if_true, List.append_nil]
    exact same_decoding_token a b UNKNOWN_CHAR h (by decide) (by decide) (by decide)
  | false =>
    simp only [Bool.false_eq_true, if_false, List.append_assoc]
    exact same_decoding_blank_token a b UNKNOWN_CHAR h (by decide) (by decide) (by decide)

/-- The outputs of the two modes on the same text leave the decoder in the same
state. -/
theorem encode_loop_same_decoding (fuel : Nat) (l : List Nat) (fl fw : Bool)
    (a b : List Nat) (h : same_decoding a b) :
    same_decoding (encode_loop true fuel l ⟨a, fl, fw⟩).morse_code
      (encode_loop false fuel l ⟨b, fl, fw⟩).morse_code := by
  induction fuel generalizing l fl fw a b with
  | zero => exact h
  | succ n ih =>
    cases l with
    | nil => exact h
    | cons c rest =>
      by_cases hc : c < 128
      · rw [encode_loop_cons true n c rest _ (Or.inl hc),
          encode_loop_cons false n c rest _ (Or.inl hc)]
        unfold encode_step
        by_cases h1 : c = 10 ∨ c = 13
        · simp only [h1, if_true]
          exact ih _ _ _ _ _ h
        · simp only [h1, if_false]
          by_cases h2 : c = 32
          · simp only [h2, if_true]
            cases fw with
            | true => exact ih _ _ _ _ _ h
            | false => exact ih _ _ _ _ _ (same_decoding_word_separator a b h)
          · simp only [h2, if_false]
            obtain ⟨hne, h32, h47⟩ := letter_token_shape c
            cases fl with
            | true => exact ih _ _ _ _ _ (same_decoding_token a b _ h hne h32 h47)
            | false =>
              have hb := same_decoding_blank_token a b _ h hne h32 h47
              have hsep : LETTER_SEPARATOR = [32] := by decide
              simp only [Bool.not_false, if_true, hsep, List.append_assoc,
                List.singleton_append]
              exact ih _ _ _ _ _ hb
      · obtain ⟨k, hk⟩ := utf8_bytes_pos c
        rw [encode_loop_cons_high true n c rest _ (by omega),
          encode_loop_cons_high false n c rest _ (by omega), hk]
        exact ih _ _ _ _ _ (same_decoding_marks k fl a b h)

/-! ## Size of the buffers -/

/-- C19. Evaluation of `decode_from_morse` where the claim fails: the one-mark input `.`
decodes to `E`, so the result and its terminator take two bytes while the buffer has
the length of the input, one byte. -/
theorem C19_single_mark_overflows :
    decode_from_morse (some (str ".")) = some (str "E") ∧
    (str ".").length = 1 ∧
    ¬ ((str "E").length + 1 ≤ (str ".").length) := by
  decide

/-- C20. Evaluation of `encode_to_morse` where the claim fails: on the one-byte text
`F0` the inner loop moves the scan over the terminator, the scan goes on in the memory
behind the text, and with `AAAA` there the function writes 19 characters and a terminator
into the buffer of `10 * 1` bytes. -/
theorem C20_scan_passes_terminator :
    strlen [0xF0, 0, 0, 0, 65, 65, 65, 65, 0] = 1 ∧
    encode_to_morse_mem [0xF0, 0, 0, 0, 65, 65, 65, 65, 0] false =
      str "* * * * .- .- .- .-" ∧
    ¬ ((encode_to_morse_mem [0xF0, 0, 0, 0, 65, 65, 65, 65, 0] false).length + 1 ≤
        10 * strlen [0xF0, 0, 0, 0, 65, 65, 65, 65, 0]) := by
  decide

theorem scan_in_bounds_drop (l : List Nat) (k : Nat) (h : scan_in_bounds l) :
    scan_in_bounds (l.drop k) := by
  induction k generalizing l with
  | zero => exact h
  | succ k ih =>
    cases l with
    | nil => exact h
    | cons c rest => exact ih rest h.2

/-- On a text whose scan stays in front of the terminator, the loop on the memory behind
the pointer does what the loop on the bytes of the string does, whatever lies behind the
terminator. -/
theorem encode_loop_mem_eq (m : Bool) (fuel : Nat) (text beyond : List Nat) (s : EncState)
    (h0 : 0 ∉ text) (hb : scan_in_bounds text) :
    encode_loop_mem m fuel (text ++ 0 :: beyond) s = encode_loop m fuel text s := by
  induction fuel generalizing text s with
  | zero => rfl
  | succ n ih =>
    cases text with
    | nil =>
      rw [List.nil_append, encode_loop_mem, if_pos rfl]
      rfl
    | cons c rest =>
      have hc0 : c ≠ 0 := fun h => h0 (by simp [h])
      have hrest0 : 0 ∉ rest := fun h => h0 (List.mem_cons_of_mem _ h)
      have ihr := fun s1 => ih rest s1 hrest0 hb.2
      rw [List.cons_append, encode_loop_mem, encode_loop, if_neg hc0]
      by_cases h1 : c = 10 ∨ c = 13
      · rw [if_pos h1, if_pos h1]
        exact ihr _
      · rw [if_neg h1, if_neg h1]
        by_cases h2 : c = 32
        · rw [if_pos h2, if_pos h2]
          exact ihr _
        · rw [if_neg h2, if_neg h2]
          cases hm : get_morse_for_char c with
          | some code => exact ihr _
          | none =>
            simp only
            by_cases h3 : c < 128
            · rw [if_pos h3, if_pos h3]
              exact ihr _
            · rw [if_neg h3, if_neg h3]
              obtain ⟨k, hk⟩ := utf8_bytes_pos c
              have hlen : k ≤ rest.length := by
                have := hb.1 (by omega)
                omega
              rw [hk, unknown_loop_marks, unknown_loop_marks, List.drop_append_of_le_length hlen]
              exact ih _ _ (fun h => hrest0 (List.mem_of_mem_drop h))
                (scan_in_bounds_drop rest k hb.2)

theorem length_marks (k : Nat) :
    (List.intercalate LETTER_SEPARATOR (List.replicate (k + 1) UNKNOWN_CHAR)).length =
      2 * k + 1 := by
  rw [List.replicate_succ, intercalate_cons_eq, List.map_replicate, List.length_append]
  have : ∀ j : Nat, (List.replicate j (LETTER_SEPARATOR ++ UNKNOWN_CHAR)).flatten.length = 2 * j := by
    intro j
    induction j with
    | zero => rfl
    | succ j ihj =>
      rw [List.replicate_succ, List.flatten_cons, List.length_append, ihj]
      have : (LETTER_SEPARATOR ++ UNKNOWN_CHAR).length = 2 := by decide
      omega
  rw [this]
  have : UNKNOWN_CHAR.length = 1 := by decide
  omega

theorem letter_token_length (c : Nat) : (letter_token c).length ≤ 6 := by
  unfold letter_token
  cases hm : get_morse_for_char c with
  | none => decide
  | some code =>
    have hs : code ∈ stored_codes := get_morse_for_char_loop_stored _ _ _ hm
    have hlen : ∀ code ∈ stored_codes, code.length ≤ 6 := by decide
    exact hlen code hs

theorem encode_step_length (m : Bool) (s : EncState) (c : Nat) :
    (encode_step m s c).morse_code.length ≤ s.morse_code.length + 7 := by
  have h1 : (word_separator m).length = 3 := by cases m <;> decide
  have h2 : LETTER_SEPARATOR.length = 1 := by decide
  have h3 := letter_token_length c
  unfold encode_step
  split_ifs <;> (try simp only [List.length_append]) <;> omega

theorem utf8_bytes_le (c : Nat) : utf8_bytes c ≤ 4 := by
  unfold utf8_bytes
  split_ifs <;> omega

/-- Each iteration of the loop of `encode_to_morse` adds at most eight characters. -/
theorem encode_loop_length (m : Bool) (fuel : Nat) (l : List Nat) (s : EncState) :
    (encode_loop m fuel l s).morse_code.length ≤ s.morse_code.length + 8 * l.length := by
  induction fuel generalizing l s with
  | zero => exact Nat.le_add_right _ _
  | succ n ih =>
    cases l with
    | nil => exact Nat.le_add_right _ _
    | cons c rest =>
      by_cases hc : c < 128
      · rw [encode_loop_cons m n c rest s (Or.inl hc)]
        have h1 := ih rest (encode_step m s c)
        have h2 := encode_step_length m s c
        rw [List.length_cons]
        omega
      · obtain ⟨k, hk⟩ := utf8_bytes_pos c
        have hk4 := utf8_bytes_le c
        rw [encode_loop_cons_high m n c rest s (by omega)]
        have h1 := ih (rest.drop (utf8_bytes c - 1))
          ⟨s.morse_code ++ (if s.first_letter then [] else LETTER_SEPARATOR) ++
            List.intercalate LETTER_SEPARATOR (List.replicate (utf8_bytes c) UNKNOWN_CHAR),
          false, if s.first_letter then false else s.first_word⟩
        have h2 : (if s.first_letter then ([] : List Nat) else LETTER_SEPARATOR).length ≤ 1 := by
          split_ifs <;> decide
        have h3 : (rest.drop (utf8_bytes c - 1)).length ≤ rest.length := by simp
        simp only [List.length_append] at h1
        rw [hk, length_marks] at h1
        rw [hk] at hk4 h3 ⊢
        rw [List.length_cons]
        omega

/-- The result of `encode_to_morse` and its terminator fit the buffer of ten times the
length of the text whenever the text is not empty and its scan stays in front of the
terminator, whatever lies in memory behind the text. -/
theorem encode_to_morse_mem_fits (text beyond : List Nat) (m : Bool) (hne : text ≠ [])
    (h0 : 0 ∉ text) (hb : scan_in_bounds text) :
    encode_to_morse_mem (text ++ 0 :: beyond) m =
      (encode_loop m text.length text ⟨[], true, true⟩).morse_code ∧
    strlen (text ++ 0 :: beyond) = text.length ∧
    (encode_to_morse_mem (text ++ 0 :: beyond) m).length + 1 ≤
      10 * strlen (text ++ 0 :: beyond) := by
  have h1 : encode_to_morse_mem (text ++ 0 :: beyond) m =
      (encode_loop m text.length text ⟨[], true, true⟩).morse_code := by
    unfold encode_to_morse_mem
    rw [encode_loop_mem_eq m _ text beyond _ h0 hb, encode_loop_fuel m _ text _ (by simp)]
  have h2 : strlen (text ++ 0 :: beyond) = text.length := by
    unfold strlen
    rw [List.takeWhile_append_of_pos (by
      intro x hx
      have : x ≠ 0 := fun h => h0 (h ▸ hx)
      simpa using this)]
    simp
  refine ⟨h1, h2, ?_⟩
  rw [h1, h2]
  have h3 := encode_loop_length m text.length text ⟨[], true, true⟩
  have h4 : 0 < text.length := List.length_pos.mpr hne
  simp only [List.length_nil, Nat.zero_add] at h3
  omega

theorem resolve_length (buf : List Nat) : (resolve buf).length ≤ min buf.length 1 := by
  cases buf with
  | nil => rw [resolve_nil]; exact Nat.zero_le _
  | cons c r =>
    unfold resolve
    split_ifs <;> simp

theorem decode_step_measure (s : DecState) (c : Nat) :
    (decode_step s c).text.length + min (decode_step s c).morse_buffer.length 1 ≤
      s.text.length + min s.morse_buffer.length 1 + 1 := by
  have hr := resolve_length s.morse_buffer
  unfold decode_step
  split_ifs <;> simp [flush_buffer_eq] <;> omega

/-- The decoded text is at most as long as the input read, counted from any state of
the loop. -/
theorem decode_run_length (n : Nat) (l : List Nat) (s : DecState) (hn : l.length ≤ n) :
    (flush_buffer (decode_run l s).text (decode_run l s).morse_buffer).length ≤
      s.text.length + min s.morse_buffer.length 1 + l.length := by
  induction n generalizing l s with
  | zero =>
    have : l = [] := List.length_eq_zero.mp (Nat.le_zero.mp hn)
    subst this
    have hr := resolve_length s.morse_buffer
    rw [decode_run_nil, flush_buffer_eq, List.length_append]
    simp only [List.length_nil]
    omega
  | succ n ih =>
    cases l with
    | nil =>
      have hr := resolve_length s.morse_buffer
      rw [decode_run_nil, flush_buffer_eq, List.length_append]
      simp only [List.length_nil]
      omega
    | cons c rest =>
      have hlen : rest.length ≤ n := by simpa using hn
      by_cases hfire : c = 32 ∧ s.space_count + 1 = 1 ∧ rest.getD 0 0 = 47 ∧ rest.getD 1 0 = 32
      · obtain ⟨hc, hsc, h0, h1⟩ := hfire
        subst hc
        cases rest with
        | nil => simp at h0
        | cons d r =>
          simp only [List.getD_cons_zero] at h0
          subst h0
          cases r with
          | nil => simp at h1
          | cons e r1 =>
            simp only [List.getD_cons_succ, List.getD_cons_zero] at h1
            subst h1
            rw [decode_run_slash _ _ (by omega)]
            have h2 := ih r1 ⟨flush_buffer s.text s.morse_buffer ++ [32], [], 0, true⟩
              (by simp at hlen; omega)
            have hr := resolve_length s.morse_buffer
            simp only [flush_buffer_eq, List.length_append, List.length_cons, List.length_nil]
              at h2 ⊢
            omega
      · rw [decode_run_cons _ _ _ hfire]
        have h2 := ih rest (decode_step s c) hlen
        have h3 := decode_step_measure s c
        rw [List.length_cons]
        omega

/-- Apart from the inputs of one byte, the result of `decode_from_morse` and its
terminator fit the buffer of the length of the input. -/
theorem decode_fits_from_two (code : List Nat) (h2 : 2 ≤ code.length) :
    ∃ text, decode_from_morse (some code) = some text ∧ text.length + 1 ≤ code.length := by
  refine ⟨_, rfl, ?_⟩
  change (flush_buffer (decode_run code ⟨[], [], 0, false⟩).text
    (decode_run code ⟨[], [], 0, false⟩).morse_buffer).length + 1 ≤ code.length
  obtain ⟨c, rest, rfl⟩ : ∃ c rest, code = c :: rest := by
    cases code with
    | nil => simp at h2
    | cons c rest => exact ⟨c, rest, rfl⟩
  obtain ⟨d, rest1, rfl⟩ : ∃ d rest1, rest = d :: rest1 := by
    cases rest with
    | nil => simp at h2
    | cons d rest1 => exact ⟨d, rest1, rfl⟩
  by_cases hfire : c = 32 ∧ (0 : Nat) + 1 = 1 ∧ (d :: rest1).getD 0 0 = 47 ∧
      (d :: rest1).getD 1 0 = 32
  · obtain ⟨hc, -, h0, h1⟩ := hfire
    subst hc
    simp only [List.getD_cons_zero] at h0
    subst h0
    cases rest1 with
    | nil => simp at h1
    | cons e r1 =>
      simp only [List.getD_cons_succ, List.getD_cons_zero] at h1
      subst h1
      rw [decode_run_slash _ _ rfl]
      have h3 := decode_run_length r1.length r1
        ⟨flush_buffer [] [] ++ [32], [], 0, true⟩ (Nat.le_refl _)
      simp only [flush_buffer_eq, resolve_nil, List.length_append, List.length_cons,
        List.length_nil] at h3 ⊢
      omega
  · rw [decode_run_cons _ _ _ hfire]
    by_cases hc : c = 32
    · subst hc
      have h3 := decode_run_length (d :: rest1).length (d :: rest1)
        (decode_step ⟨[], [], 0, false⟩ 32) (Nat.le_refl _)
      rw [decode_step_blank] at h3 ⊢
      simp only [Nat.zero_add, Nat.reduceEqDiff, if_false, resolve_nil, List.append_nil,
        List.length_nil, List.length_cons, Nat.zero_min] at h3 ⊢
      omega
    · have hs : decode_step ⟨[], [], 0, false⟩ c = ⟨[], [c], 0, false⟩ := by
        simp [decode_step, hc, MAX_MORSE_CODE_LENGTH]
      rw [hs]
      by_cases hfire2 : d = 32 ∧ (0 : Nat) + 1 = 1 ∧ rest1.getD 0 0 = 47 ∧ rest1.getD 1 0 = 32
      · obtain ⟨hd, -, h0, h1⟩ := hfire2
        subst hd
        cases rest1 with
        | nil => simp at h0
        | cons e r =>
          simp only [List.getD_cons_zero] at h0
          subst h0
          cases r with
          | nil => simp at h1
          | cons e1 r1 =>
            simp only [List.getD_cons_succ, List.getD_cons_zero] at h1
            subst h1
            rw [decode_run_slash _ _ rfl]
            have h3 := decode_run_length r1.length r1
              ⟨flush_buffer [] [c] ++ [32], [], 0, true⟩ (Nat.le_refl _)
            have hr := resolve_length [c]
            simp only [flush_buffer_eq, List.length_append, List.length_cons,
              List.length_nil, List.nil_append] at h3 hr ⊢
            omega
      · rw [decode_run_cons _ _ _ hfire2]
        have h3 := decode_run_length rest1.length rest1
          (decode_step ⟨[], [c], 0, false⟩ d) (Nat.le_refl _)
        have h4 : (decode_step ⟨[], [c], 0, false⟩ d).text.length +
            min (decode_step ⟨[], [c], 0, false⟩ d).morse_buffer.length 1 ≤ 1 := by
          have hr := resolve_length [c]
          by_cases hd : d = 32
          · subst hd
            rw [decode_step_blank]
            simp only [Nat.zero_add, Nat.reduceEqDiff, if_false, List.nil_append,
              List.length_nil, List.length_cons] at hr ⊢
            omega
          · have hs2 : decode_step ⟨[], [c], 0, false⟩ d = ⟨[], [c, d], 0, false⟩ := by
              simp [decode_step, hd, MAX_MORSE_CODE_LENGTH]
            rw [hs2]
            simp
        simp only [List.length_cons] at h3 ⊢
        omega

/-! ## The cap of the letter buffer -/

theorem flush_buffer_take (text buf : List Nat) :
    flush_buffer text (buf.take MAX_MORSE_CODE_LENGTH) = flush_buffer text buf := by
  rw [flush_buffer_eq, flush_buffer_eq, resolve_take]

theorem capped_push (buf : List Nat) (c : Nat) :
    (if (buf.take MAX_MORSE_CODE_LENGTH).length < MAX_MORSE_CODE_LENGTH then
        buf.take MAX_MORSE_CODE_LENGTH ++ [c]
      else buf.take MAX_MORSE_CODE_LENGTH) =
      (buf ++ [c]).take MAX_MORSE_CODE_LENGTH := by
  by_cases h : buf.length < MAX_MORSE_CODE_LENGTH
  · rw [List.take_of_length_le (Nat.le_of_lt h), if_pos h,
      List.take_of_length_le (by simp; omega)]
  · have h1 : MAX_MORSE_CODE_LENGTH ≤ buf.length := Nat.le_of_not_lt h
    have h2 : ¬ (buf.take MAX_MORSE_CODE_LENGTH).length < MAX_MORSE_CODE_LENGTH := by
      rw [List.length_take]
      omega
    rw [if_neg h2, List.take_append_of_le_length h1]

/-- The decoder and the reference decoder run in lockstep: the capped letter buffer
stays the first ten characters of the uncapped one, everything else stays equal. -/
theorem decode_loop_capped_of (fuel : Nat) (l : List Nat) (s u : DecState)
    (h : capped_of s u) :
    capped_of (decode_loop fuel l s) (decode_loop_uncapped fuel l u) := by
  induction fuel generalizing l s u with
  | zero => exact h
  | succ n ih =>
    cases l with
    | nil => exact h
    | cons c rest =>
      obtain ⟨ht, hb, hsc, hsl⟩ := h
      have hflush : flush_buffer s.text s.morse_buffer = flush_buffer u.text u.morse_buffer := by
        rw [ht, hb, flush_buffer_take]
      rw [decode_loop, decode_loop_uncapped]
      by_cases hc : c = 32
      · rw [if_pos hc, if_pos hc]
        simp only [hflush, hsc, hsl]
        split_ifs
        · exact ih _ _ _ ⟨rfl, rfl, rfl, rfl⟩
        · exact ih _ _ _ ⟨rfl, rfl, rfl, rfl⟩
        · exact ih _ _ _ ⟨rfl, rfl, rfl, rfl⟩
      · rw [if_neg hc, if_neg hc]
        apply ih
        refine ⟨ht, ?_, rfl, rfl⟩
        simp only
        rw [hb, capped_push]

theorem long_token_unresolved (t : List Nat) (h : MAX_MORSE_CODE_LENGTH < t.length) :
    get_char_for_morse t = 0 ∧ get_char_for_morse (t.take MAX_MORSE_CODE_LENGTH) = 0 := by
  have hlen : ∀ code ∈ stored_codes, code.length ≤ 6 := by decide
  unfold MAX_MORSE_CODE_LENGTH at h ⊢
  constructor
  · apply get_char_for_morse_not_stored
    intro hm
    have := hlen t hm
    omega
  · apply get_char_for_morse_not_stored
    intro hm
    have := hlen _ hm
    rw [List.length_take] at this
    omega

/-- The cap is at work on a token of eleven marks: the letter buffer of the decoder
holds ten of them, the one of the reference decoder all eleven. -/
theorem cap_drops_eleventh_mark :
    (decode_loop 11 (List.replicate 11 46) ⟨[], [], 0, false⟩).morse_buffer =
      List.replicate 10 46 ∧
    (decode_loop_uncapped 11 (List.replicate 11 46) ⟨[], [], 0, false⟩).morse_buffer =
      List.replicate 11 46 := by
  decide

/-- C21. The 10-mark cap of the letter buffer never changes a result: for every input
(absent or any string), `decode_from_morse` equals the reference decoder that is
identical except that it accumulates every non-blank character of a token without any
cap; a token of more than ten characters resolves to nothing, whole or cut to its first
ten characters. -/
theorem C21_cap_never_changes_result (morse_code : Option (List Nat)) :
    decode_from_morse morse_code = decode_from_morse_uncapped morse_code ∧
    (∀ t : List Nat, MAX_MORSE_CODE_LENGTH < t.length →
      get_char_for_morse t = 0 ∧ get_char_for_morse (t.take MAX_MORSE_CODE_LENGTH) = 0) := by
  refine ⟨?_, long_token_unresolved⟩
  cases morse_code with
  | none => rfl
  | some m =>
    obtain ⟨ht, hb, -, -⟩ := decode_loop_capped_of m.length m ⟨[], [], 0, false⟩
      ⟨[], [], 0, false⟩ ⟨rfl, rfl, rfl, rfl⟩
    unfold decode_from_morse decode_from_morse_uncapped
    simp only
    rw [ht, hb, flush_buffer_take]

/-! ## The scan and the terminator -/

theorem encode_loop_mem_zero (m : Bool) (fuel : Nat) (rest : List Nat) (s : EncState) :
    encode_loop_mem m fuel (0 :: rest) s = s := by
  cases fuel with
  | zero => rfl
  | succ n => rw [encode_loop_mem, if_pos rfl]

theorem encode_loop_mem_nil (m : Bool) (fuel : Nat) (s : EncState) :
    encode_loop_mem m fuel [] s = s := by
  cases fuel <;> rfl

/-- One iteration of the loop on memory at a byte that is not the terminator and does not
take the multi-byte branch. -/
theorem encode_loop_mem_cons (m : Bool) (fuel c : Nat) (rest : List Nat) (s : EncState)
    (hc0 : c ≠ 0) (hc : c < 128 ∨ (get_morse_for_char c).isSome = true) :
    encode_loop_mem m (fuel + 1) (c :: rest) s =
      encode_loop_mem m fuel rest (encode_step m s c) := by
  unfold encode_step letter_token word_separator
  rw [encode_loop_mem, if_neg hc0]
  by_cases h1 : c = 10 ∨ c = 13
  · simp only [h1, if_true]
  · simp only [h1, if_false]
    by_cases h2 : c = 32
    · simp only [h2, if_true]
      cases s.first_word <;> cases m <;> rfl
    · simp only [h2, if_false]
      cases hm : get_morse_for_char c with
      | some code => cases s.first_letter <;> rfl
      | none =>
        rw [hm] at hc
        have h3 : c < 128 := by
          rcases hc with h | h
          · exact h
          · exact absurd h (by simp)
        simp only [h3, if_true]
        cases s.first_letter <;> rfl

/-- One iteration of the loop on memory at a byte outside the 7-bit range: the scan
moves on over the announced bytes of memory, terminator or not. -/
theorem encode_loop_mem_cons_high (m : Bool) (fuel b : Nat) (rest : List Nat) (s : EncState)
    (hb : 128 ≤ b) :
    encode_loop_mem m (fuel + 1) (b :: rest) s =
      encode_loop_mem m fuel (rest.drop (utf8_bytes b - 1))
        ⟨s.morse_code ++ (if s.first_letter then [] else LETTER_SEPARATOR) ++
            List.intercalate LETTER_SEPARATOR (List.replicate (utf8_bytes b) UNKNOWN_CHAR),
          false, if s.first_letter then false else s.first_word⟩ := by
  rw [encode_loop_mem]
  have h0 : ¬ b = 0 := by omega
  have h1 : ¬ (b = 10 ∨ b = 13) := by omega
  have h2 : ¬ b = 32 := by omega
  have h3 : ¬ b < 128 := by omega
  simp only [h0, h1, h2, h3, if_false, get_morse_for_char_high b hb]
  obtain ⟨n, hn⟩ := utf8_bytes_pos b
  rw [hn, unknown_loop_marks]
  cases hf : s.first_letter <;> simp [hf]

/-- The loop on memory does what the loop on bytes does on the list of the bytes that
the scan covers, and this list is the same for both modes and every state. -/
theorem encode_loop_mem_scan (fuel : Nat) (mem : List Nat) :
    ∃ l : List Nat, ∀ (m : Bool) (s : EncState),
      encode_loop_mem m fuel mem s = encode_loop m fuel l s := by
  induction fuel generalizing mem with
  | zero => exact ⟨[], fun _ _ => rfl⟩
  | succ n ih =>
    cases mem with
    | nil => exact ⟨[], fun _ _ => rfl⟩
    | cons c rest =>
      by_cases hc0 : c = 0
      · subst hc0
        exact ⟨[], fun m s => by rw [encode_loop_mem_zero, encode_loop_nil]⟩
      · by_cases hc : c < 128
        · obtain ⟨l, hl⟩ := ih rest
          exact ⟨c :: l, fun m s => by
            rw [encode_loop_mem_cons m n c rest s hc0 (Or.inl hc),
              encode_loop_cons m n c l s (Or.inl hc), hl]⟩
        · by_cases hk : utf8_bytes c - 1 ≤ rest.length
          · obtain ⟨l, hl⟩ := ih (rest.drop (utf8_bytes c - 1))
            refine ⟨c :: (rest.take (utf8_bytes c - 1) ++ l), fun m s => ?_⟩
            have hlen : (rest.take (utf8_bytes c - 1)).length = utf8_bytes c - 1 := by
              rw [List.length_take]; omega
            rw [encode_loop_mem_cons_high m n c rest s (by omega),
              encode_loop_cons_high m n c _ s (by omega), hl]
            rw [List.drop_left' hlen]
          · refine ⟨c :: rest, fun m s => ?_⟩
            rw [encode_loop_mem_cons_high m n c rest s (by omega),
              encode_loop_cons_high m n c rest s (by omega),
              List.drop_eq_nil_of_le (by omega), encode_loop_mem_nil, encode_loop_nil]

theorem scan_inside_skip (p : Nat → Bool) (k : Nat) (rest : List Nat)
    (h : scan_inside p k rest = true) :
    k ≤ rest.length ∧ (∀ x ∈ rest.take k, p x = true) ∧
      scan_inside p 0 (rest.drop k) = true := by
  induction k generalizing rest with
  | zero => exact ⟨Nat.zero_le _, by simp, h⟩
  | succ k ih =>
    cases rest with
    | nil => simp [scan_inside] at h
    | cons b r =>
      simp only [scan_inside, Bool.and_eq_true] at h
      obtain ⟨h1, h2, h3⟩ := ih r h.2
      refine ⟨by simp; omega, ?_, h3⟩
      intro x hx
      simp only [List.take_succ_cons, List.mem_cons] at hx
      rcases hx with hx | hx
      · rw [hx]; exact h.1
      · exact h2 x hx

theorem scan_inside_cons_low (p : Nat → Bool) (b : Nat) (rest : List Nat) (hb : b < 128) :
    scan_inside p 0 (b :: rest) = scan_inside p 0 rest := by
  have : ¬ 128 ≤ b := by omega
  simp [scan_inside, this]

theorem scan_inside_cons_high (p : Nat → Bool) (b : Nat) (rest : List Nat) (hb : 128 ≤ b) :
    scan_inside p 0 (b :: rest) = scan_inside p (utf8_bytes b - 1) rest := by
  simp [scan_inside, hb]

/-- On a text whose scan stays in front of the terminator, the loop on the memory behind
the pointer does what the loop on the bytes of the text does, whatever lies behind the
terminator. -/
theorem encode_loop_mem_inside (p : Nat → Bool) (m : Bool) (fuel : Nat)
    (text beyond : List Nat) (s : EncState)
    (h0 : 0 ∉ text) (h : scan_inside p 0 text = true) :
    encode_loop_mem m fuel (text ++ 0 :: beyond) s = encode_loop m fuel text s := by
  induction fuel generalizing text s with
  | zero => rfl
  | succ n ih =>
    cases text with
    | nil => rw [List.nil_append, encode_loop_mem_zero, encode_loop_nil]
    | cons c rest =>
      have hc0 : c ≠ 0 := fun hc => h0 (by simp [hc])
      have hrest0 : 0 ∉ rest := fun hr => h0 (List.mem_cons_of_mem _ hr)
      by_cases hc : c < 128
      · rw [List.cons_append, encode_loop_mem_cons m n c _ s hc0 (Or.inl hc),
          encode_loop_cons m n c rest s (Or.inl hc)]
        rw [scan_inside_cons_low p c rest hc] at h
        exact ih rest _ hrest0 h
      · rw [scan_inside_cons_high p c rest (by omega)] at h
        obtain ⟨h1, -, h3⟩ := scan_inside_skip p _ rest h
        rw [List.cons_append, encode_loop_mem_cons_high m n c _ s (by omega),
          encode_loop_cons_high m n c rest s (by omega), List.drop_append_of_le_length h1]
        exact ih _ _ (fun hr => hrest0 (List.mem_of_mem_drop hr)) h3

/-- On a text whose scan stays in front of the terminator, `encode_to_morse_mem` on the
memory that holds the text gives the result of `encode_to_morse` on the text. -/
theorem encode_to_morse_mem_inside (p : Nat → Bool) (m : Bool) (text beyond : List Nat)
    (h0 : 0 ∉ text) (h : scan_inside p 0 text = true) :
    some (encode_to_morse_mem (text ++ 0 :: beyond) m) = encode_to_morse (some text) m := by
  unfold encode_to_morse_mem encode_to_morse
  simp only
  rw [encode_loop_mem_inside p m _ text beyond _ h0 h, encode_loop_fuel m _ text _ (by simp)]

/-- C18. Decoding does not depend on the word-separator mode that produced the code: for
every memory `mem` behind the pointer `text` (a text of any bytes and any spacing, its
terminator, and whatever lies behind it), decoding what `encode_to_morse` writes in slash
mode gives the same result as decoding what it writes in three-blank mode; the same
holds for the absent input. -/
theorem C18_decode_mode_independent (mem : List Nat) :
    decode_from_morse (some (encode_to_morse_mem mem true)) =
      decode_from_morse (some (encode_to_morse_mem mem false)) ∧
    decode_from_morse (encode_to_morse none true) =
      decode_from_morse (encode_to_morse none false) := by
  have hinit : same_decoding [] [] :=
    ⟨[], [], false, false, rfl, rfl, Nat.zero_le _, by simp, by simp⟩
  refine ⟨?_, rfl⟩
  obtain ⟨l, hl⟩ := encode_loop_mem_scan mem.length mem
  obtain ⟨text, buf, f1, f2, ha, hb, -, -, -⟩ :=
    encode_loop_same_decoding mem.length l true true [] [] hinit
  unfold decode_run at ha hb
  unfold encode_to_morse_mem decode_from_morse
  simp only
  rw [hl true, hl false, ha, hb]

/-! ## Case of the letters and the terminator -/

theorem scan_inside_map_toupper (p : Nat → Bool) (k : Nat) (l : List Nat)
    (hp : ∀ b, p (toupper b) = p b) :
    scan_inside p k (l.map toupper) = scan_inside p k l := by
  induction l generalizing k with
  | nil => rfl
  | cons b rest ih =>
    cases k with
    | zero =>
      rw [List.map_cons]
      by_cases hb : b < 128
      · rw [scan_inside_cons_low p _ _ ((toupper_lt_128 b).mpr hb),
          scan_inside_cons_low p _ _ hb, ih]
      · have hu : toupper b = b := by unfold toupper; split_ifs <;> omega
        rw [hu, scan_inside_cons_high p _ _ (by omega), scan_inside_cons_high p _ _ (by omega),
          ih]
    | succ k =>
      simp only [List.map_cons, scan_inside, hp, ih]

/-- Encoding is case-insensitive on every text whose scan stays in front of the
terminator, whatever lies in memory behind the text and behind its uppercase form. -/
theorem encode_to_morse_mem_toupper (text beyond beyond1 : List Nat) (m : Bool)
    (h0 : 0 ∉ text) (h : scan_stays_inside text) :
    encode_to_morse_mem (text ++ 0 :: beyond) m =
      encode_to_morse_mem (text.map toupper ++ 0 :: beyond1) m := by
  have h1 : (0 : Nat) ∉ text.map toupper := by
    intro hm
    obtain ⟨x, hx, hx0⟩ := List.mem_map.mp hm
    rw [toupper_eq_iff_small x 0 (by omega)] at hx0
    exact h0 (hx0 ▸ hx)
  have h2 : scan_inside (fun _ => true) 0 (text.map toupper) = true := by
    rw [scan_inside_map_toupper (fun _ => true) 0 text (fun _ => rfl)]
    exact h
  have e1 := encode_to_morse_mem_inside _ m text beyond h0 h
  have e2 := encode_to_morse_mem_inside _ m (text.map toupper) beyond1 h1 h2
  rw [← encode_to_morse_toupper] at e2
  exact Option.some.inj (e1.trans e2.symm)

/-- C11. Evaluation of `encode_to_morse` where the claim fails: the text `a` `C3` ends
inside a two-byte character, so the scan steps over the terminator and encodes the byte
behind it; with `A` behind the text and `B` behind its uppercase form `A` `C3` the two
results differ. -/
theorem C11_case_fails_past_terminator :
    strlen [97, 0xC3, 0, 65, 0] = 2 ∧ strlen [65, 0xC3, 0, 66, 0] = 2 ∧
    ([97, 0xC3, 0, 65, 0].take 2).map toupper = [65, 0xC3, 0, 66, 0].take 2 ∧
    encode_to_morse_mem [97, 0xC3, 0, 65, 0] false = str ".- * * .-" ∧
    encode_to_morse_mem [65, 0xC3, 0, 66, 0] false = str ".- * * -..." ∧
    encode_to_morse_mem [97, 0xC3, 0, 65, 0] false ≠
      encode_to_morse_mem [65, 0xC3, 0, 66, 0] false := by
  decide

/-! ## Line feeds, carriage returns and the scan -/

theorem encode_step_newline (m : Bool) (s : EncState) (c : Nat) (h : c = 10 ∨ c = 13) :
    encode_step m s c = s := by
  unfold encode_step
  rw [if_pos h]

theorem strip_newlines_cons_newline (c : Nat) (rest : List Nat) (h : c = 10 ∨ c = 13) :
    strip_newlines (c :: rest) = strip_newlines rest := by
  unfold strip_newlines
  rw [List.filter_cons_of_neg (by simp; omega)]

theorem strip_newlines_cons_other (c : Nat) (rest : List Nat) (h : ¬ (c = 10 ∨ c = 13)) :
    strip_newlines (c :: rest) = c :: strip_newlines rest := by
  unfold strip_newlines
  rw [List.filter_cons_of_pos (by simp; omega)]

theorem encode_loop_strip (m : Bool) (n : Nat) (l : List Nat) (s : EncState)
    (hn : l.length ≤ n)
    (h : scan_inside (fun b => decide (b ≠ 10 ∧ b ≠ 13)) 0 l = true) :
    encode_loop m l.length l s =
      encode_loop m (strip_newlines l).length (strip_newlines l) s := by
  induction n generalizing l s with
  | zero =>
    have : l = [] := List.length_eq_zero.mp (Nat.le_zero.mp hn)
    subst this
    rfl
  | succ n ih =>
    cases l with
    | nil => rfl
    | cons c rest =>
      have hlen : rest.length ≤ n := by simpa using hn
      by_cases hnl : c = 10 ∨ c = 13
      · rw [scan_inside_cons_low _ c rest (by omega)] at h
        rw [strip_newlines_cons_newline c rest hnl, List.length_cons,
          encode_loop_cons m _ c rest s (Or.inl (by omega)), encode_step_newline m s c hnl]
        exact ih rest s hlen h
      · rw [strip_newlines_cons_other c rest hnl, List.length_cons, List.length_cons]
        by_cases hc : c < 128
        · rw [scan_inside_cons_low _ c rest hc] at h
          rw [encode_loop_cons m _ c rest s (Or.inl hc),
            encode_loop_cons m _ c _ s (Or.inl hc)]
          exact ih rest _ hlen h
        · rw [scan_inside_cons_high _ c rest (by omega)] at h
          obtain ⟨-, h2, h3⟩ := scan_inside_skip _ _ rest h
          have hdrop : (strip_newlines rest).drop (utf8_bytes c - 1) =
              strip_newlines (rest.drop (utf8_bytes c - 1)) := by
            unfold strip_newlines
            exact filter_drop_of_take _ rest _ h2
          rw [encode_loop_cons_high m _ c rest s (by omega),
            encode_loop_cons_high m _ c _ s (by omega), hdrop,
            encode_loop_fuel m rest.length _ _ (by simp),
            ih _ _ (by simp; omega) h3]
          symm
          apply encode_loop_fuel
          rw [← hdrop]
          simp

theorem scan_inside_strip (k : Nat) (l : List Nat)
    (h : scan_inside (fun b => decide (b ≠ 10 ∧ b ≠ 13)) k l = true) :
    scan_inside (fun b => decide (b ≠ 10 ∧ b ≠ 13)) k (strip_newlines l) = true := by
  induction l generalizing k with
  | nil => exact h
  | cons b rest ih =>
    cases k with
    | zero =>
      by_cases hnl : b = 10 ∨ b = 13
      · rw [scan_inside_cons_low _ b rest (by omega)] at h
        rw [strip_newlines_cons_newline b rest hnl]
        exact ih 0 h
      · rw [strip_newlines_cons_other b rest hnl]
        by_cases hb : b < 128
        · rw [scan_inside_cons_low _ b rest hb] at h
          rw [scan_inside_cons_low _ b _ hb]
          exact ih 0 h
        · rw [scan_inside_cons_high _ b rest (by omega)] at h
          rw [scan_inside_cons_high _ b _ (by omega)]
          exact ih _ h
    | succ k =>
      simp only [scan_inside, Bool.and_eq_true, decide_eq_true_eq] at h
      rw [strip_newlines_cons_other b rest (by omega)]
      simp only [scan_inside, Bool.and_eq_true, decide_eq_true_eq]
      exact ⟨h.1, ih k h.2⟩

/-- The claim C12 as written fails on a line feed that follows a lead byte: the scan
steps over the line feed as the second byte of the character and then encodes `A`, while
without the line feed it steps over `A`. Both scans stay in front of the terminator. -/
theorem C12_newline_after_lead_byte :
    encode_to_morse (some [0xC3, 10, 65]) false = some (str "* * .-") ∧
    strip_newlines [0xC3, 10, 65] = [0xC3, 65] ∧
    encode_to_morse (some (strip_newlines [0xC3, 10, 65])) false = some (str "* *") ∧
    encode_to_morse (some [0xC3, 10, 65]) false ≠
      encode_to_morse (some (strip_newlines [0xC3, 10, 65])) false ∧
    scan_stays_inside [0xC3, 10, 65] ∧ scan_stays_inside [0xC3, 65] ∧
    encode_to_morse_mem [0xC3, 10, 65, 0] false = str "* * .-" ∧
    encode_to_morse_mem [0xC3, 65, 0] false = str "* *" := by
  decide

/-- C12 (amended). Line feeds and carriage returns are skipped by encode: for every text
whose scan stays in front of the terminator and steps over no line feed and no carriage
return (each byte outside the 7-bit range that the scan reads is followed by the bytes
it announces, none of them a line feed or a carriage return), and for either mode,
`encode_to_morse` of the text equals `encode_to_morse` of the text with every line-feed
and carriage-return byte removed; this is so on the bytes of the text and in memory,
whatever lies behind the two texts. -/
theorem C12_newlines_skipped (text : List Nat) (use_slash_wordspacer : Bool)
    (h : scan_steps_over_no_newline text) :
    encode_to_morse (some text) use_slash_wordspacer =
      encode_to_morse (some (strip_newlines text)) use_slash_wordspacer ∧
    (0 ∉ text → ∀ beyond beyond1 : List Nat,
      encode_to_morse_mem (text ++ 0 :: beyond) use_slash_wordspacer =
        encode_to_morse_mem (strip_newlines text ++ 0 :: beyond1) use_slash_wordspacer) := by
  have e : encode_to_morse (some text) use_slash_wordspacer =
      encode_to_morse (some (strip_newlines text)) use_slash_wordspacer := by
    unfold encode_to_morse
    simp only
    rw [encode_loop_strip use_slash_wordspacer text.length text _ (Nat.le_refl _) h]
  refine ⟨e, fun h0 beyond beyond1 => ?_⟩
  have h1 : (0 : Nat) ∉ strip_newlines text := fun hm => h0 (List.mem_of_mem_filter hm)
  have e1 := encode_to_morse_mem_inside _ use_slash_wordspacer text beyond h0 h
  have e2 := encode_to_morse_mem_inside _ use_slash_wordspacer (strip_newlines text) beyond1 h1
    (scan_inside_strip 0 text h)
  rw [← e] at e2
  exact Option.some.inj (e1.trans e2.symm)

theorem C12_newlines_skipped_witness :
    scan_steps_over_no_newline [97, 10, 0xE2, 0x80, 0xC3, 10, 13, 32, 10, 98] ∧
    encode_to_morse (some [97, 10, 0xE2, 0x80, 0xC3, 10, 13, 32, 10, 98]) true =
      encode_to_morse (some [97, 0xE2, 0x80, 0xC3, 32, 98]) true ∧
    encode_to_morse_mem ([97, 10, 0xE2, 0x80, 0xC3, 10, 13, 32, 10, 98] ++ 0 :: [65, 0]) true =
      encode_to_morse_mem ([97, 0xE2, 0x80, 0xC3, 32, 98] ++ 0 :: [66, 0]) true :=
  have h := C12_newlines_skipped [97, 10, 0xE2, 0x80, 0xC3, 10, 13, 32, 10, 98] true
    (by decide)
  ⟨by decide, h.1, h.2 (by decide) [65, 0] [66, 0]⟩

end Morse
